import Mathlib

/-!
Verification of the data-structures and algorithms portfolio.

The stateless algorithm functions are embedded from
src/algorithms/algorithms.py.  The data-structures module
(data_structures.py) is exercised by src/algorithms/tests but its
implementation file is not part of the source tree, so those
components are modelled from the specification (spec.md sections 3
and 4) and checked against the properties of section 8.
-/

set_option maxHeartbeats 1000000

namespace PyPortfolio

/- ====================================================================
   Linked List (modelled from the spec)
==================================================================== -/

/-- Modelled from the spec: data_structures.py is absent from src, only
its tests are present.  Section 3 of the spec: an ordered chain of
nodes, each holding one value and a forward reference, together with a
maintained length counter.  The chain of nodes is represented by a Lean
list (which is exactly a singly linked list); the counter is a separate
integer field, so that the invariant tying the two together is a real
statement. -/
structure LinkedList (α : Type) where
  chain : List α
  length : ℤ

variable {α : Type}

/-- Modelled from the spec: every structure is created empty. -/
def LinkedList.emptyList : LinkedList α := ⟨[], 0⟩

/-- Modelled from the spec, section 4.1: append adds the value as the
new tail and increments the length counter. -/
def LinkedList.append (s : LinkedList α) (v : α) : LinkedList α :=
  ⟨s.chain ++ [v], s.length + 1⟩

/-- Modelled from the spec, section 4.1: prepend makes a new head node
pointing at the current head and increments the length counter. -/
def LinkedList.prepend (s : LinkedList α) (v : α) : LinkedList α :=
  ⟨v :: s.chain, s.length + 1⟩

/-- Modelled from the spec, section 4.1: linear scan comparing by
equality. -/
def LinkedList.find [DecidableEq α] (s : LinkedList α) (v : α) : Bool :=
  s.chain.any (fun x => decide (x = v))

/-- Helper for delete: remove the first node (head-to-tail order) whose
value equals the argument, relinking the predecessor to the successor;
none when no node matches. -/
def deleteChain [DecidableEq α] (v : α) : List α → Option (List α)
  | [] => none
  | x :: xs => if x = v then some xs else (deleteChain v xs).map (x :: ·)

/-- Modelled from the spec, section 4.1: delete removes the first
matching node, decrements the length, and reports whether a removal
occurred; an absent value leaves the list unchanged. -/
def LinkedList.delete [DecidableEq α] (s : LinkedList α) (v : α) :
    Bool × LinkedList α :=
  match deleteChain v s.chain with
  | none => (false, s)
  | some c => (true, ⟨c, s.length - 1⟩)

/-- Modelled from the spec, section 4.1: the ordered sequence of values
head-to-tail, non-mutating. -/
def LinkedList.to_list (s : LinkedList α) : List α := s.chain

/-- Modelled from the spec: the three mutating operations of
section 4.1, used to describe an arbitrary call sequence. -/
inductive LLOp (α : Type) where
  | app (v : α)
  | pre (v : α)
  | del (v : α)

/-- One mutating call applied to a linked-list state. -/
def LLstep [DecidableEq α] (s : LinkedList α) : LLOp α → LinkedList α
  | .app v => s.append v
  | .pre v => s.prepend v
  | .del v => (s.delete v).2

/-- A sequence of mutating calls applied to the initially empty list. -/
def LLrun [DecidableEq α] (ops : List (LLOp α)) : LinkedList α :=
  ops.foldl LLstep LinkedList.emptyList

section LinkedListProofs

variable [DecidableEq α]

lemma deleteChain_eq_none_iff (v : α) (l : List α) :
    deleteChain v l = none ↔ v ∉ l := by
  induction l with
  | nil => simp [deleteChain]
  | cons x xs ih =>
    by_cases hx : x = v
    · simp [deleteChain, hx]
    · simp [deleteChain, hx, ih, Ne.symm hx]

lemma deleteChain_eq_some (v : α) (l c : List α)
    (h : deleteChain v l = some c) :
    ∃ l₁ l₂, v ∉ l₁ ∧ l = l₁ ++ v :: l₂ ∧ c = l₁ ++ l₂ := by
  induction l generalizing c with
  | nil => simp [deleteChain] at h
  | cons x xs ih =>
    by_cases hx : x = v
    · refine ⟨[], c, by simp, ?_, rfl⟩
      simp [deleteChain, hx] at h
      simp [hx, h]
    · simp [deleteChain, hx] at h
      obtain ⟨c', hc', rfl⟩ := h
      obtain ⟨l₁, l₂, hv, hl, hc⟩ := ih c' hc'
      exact ⟨x :: l₁, l₂, by simp [hv, Ne.symm hx], by simp [hl], by simp [hc]⟩

/-- Claim C4: deleting an absent value returns false and changes
nothing; deleting a present value returns true, removes exactly the
first matching node head-to-tail leaving all other nodes in order, and
decrements the length counter by one. -/
theorem LinkedList.delete_spec (s : LinkedList α) (x : α) :
    (x ∉ s.to_list →
      (s.delete x).1 = false ∧ (s.delete x).2.to_list = s.to_list ∧
        (s.delete x).2.length = s.length) ∧
    (x ∈ s.to_list →
      (s.delete x).1 = true ∧
        ∃ l₁ l₂, x ∉ l₁ ∧ s.to_list = l₁ ++ x :: l₂ ∧
          (s.delete x).2.to_list = l₁ ++ l₂ ∧
          (s.delete x).2.length = s.length - 1) := by
  constructor
  · intro hx
    have h : deleteChain x s.chain = none :=
      (deleteChain_eq_none_iff x s.chain).2 hx
    simp [LinkedList.delete, h, LinkedList.to_list]
  · intro hx
    have h : deleteChain x s.chain ≠ none := by
      rw [Ne, deleteChain_eq_none_iff]
      simpa [LinkedList.to_list] using hx
    obtain ⟨c, hc⟩ := Option.ne_none_iff_exists'.1 h
    obtain ⟨l₁, l₂, hv, hl, hcc⟩ := deleteChain_eq_some x s.chain c hc
    refine ⟨by simp [LinkedList.delete, hc], l₁, l₂, hv, hl, ?_, ?_⟩
    · simp [LinkedList.delete, hc, LinkedList.to_list, hcc]
    · simp [LinkedList.delete, hc]

/-- Closed witness for the C4 theorem at the concrete list [1, 2, 3]
of the test suite, deleting the present value 2 and the absent
value 5. -/
theorem LinkedList.delete_spec_witness :
    ((2 : ℤ) ∈ (LinkedList.mk [1, 2, 3] 3).to_list ∧
      ((LinkedList.mk ([1, 2, 3] : List ℤ) 3).delete 2).1 = true) ∧
    ((5 : ℤ) ∉ (LinkedList.mk [1, 2, 3] 3).to_list ∧
      ((LinkedList.mk ([1, 2, 3] : List ℤ) 3).delete 5).1 = false) := by
  refine ⟨⟨by decide, ?_⟩, ⟨by decide, ?_⟩⟩
  · exact ((LinkedList.delete_spec (LinkedList.mk [1, 2, 3] 3) 2).2
      (by decide)).1
  · exact ((LinkedList.delete_spec (LinkedList.mk [1, 2, 3] 3) 5).1
      (by decide)).1

lemma LLstep_preserves (s : LinkedList α)
    (h : s.length = (s.chain.length : ℤ)) (op : LLOp α) :
    (LLstep s op).length = (((LLstep s op).chain.length : ℕ) : ℤ) := by
  cases op with
  | app v => simp [LLstep, LinkedList.append, h]
  | pre v => simp [LLstep, LinkedList.prepend, h]
  | del v =>
    rcases hc : deleteChain v s.chain with _ | c
    · simpa [LLstep, LinkedList.delete, hc] using h
    · obtain ⟨l₁, l₂, _, hl, hcc⟩ := deleteChain_eq_some v s.chain c hc
      simp only [LLstep, LinkedList.delete, hc]
      rw [h, hl, hcc]
      push_cast [List.length_append, List.length_cons]
      ring

/-- Claim C5: after every sequence of append, prepend and delete calls
starting from the empty list, the maintained length counter equals the
number of nodes in the chain, that is the length of to_list. -/
theorem LLrun_length_invariant (ops : List (LLOp α)) :
    (LLrun ops).length = (((LLrun ops).to_list.length : ℕ) : ℤ) := by
  suffices h : ∀ s : LinkedList α, s.length = (s.chain.length : ℤ) →
      (ops.foldl LLstep s).length =
        (((ops.foldl LLstep s).chain.length : ℕ) : ℤ) by
    exact h LinkedList.emptyList (by simp [LinkedList.emptyList])
  induction ops with
  | nil => intro s hs; simpa using hs
  | cons op rest ih =>
    intro s hs
    exact ih (LLstep s op) (LLstep_preserves s hs op)

end LinkedListProofs

/- ====================================================================
   Binary Search Tree (modelled from the spec)
==================================================================== -/

/-- Modelled from the spec: data_structures.py is absent from src.
Section 3 of the spec: a binary tree of nodes, each holding a value and
at most two children; the empty tree is the absent root. -/
inductive BSTree (α : Type) where
  | leaf
  | node (left : BSTree α) (value : α) (right : BSTree α)

/-- Modelled from the spec, section 4.2: insert descends comparing the
new value against each node value, recursing left if less and right if
greater, attaching a new node at the first absent slot; a duplicate is
a no-op (the duplicate policy recommended by the spec). -/
def BSTree.insert [LinearOrder α] : BSTree α → α → BSTree α
  | .leaf, v => .node .leaf v .leaf
  | .node l x r, v =>
    if v < x then .node (l.insert v) x r
    else if x < v then .node l x (r.insert v)
    else .node l x r

/-- Modelled from the spec, section 4.2: search descends as in insert
and reports whether an equal value was found. -/
def BSTree.search [LinearOrder α] : BSTree α → α → Bool
  | .leaf, _ => false
  | .node l x r, v =>
    if v < x then l.search v else if x < v then r.search v else true

/-- Modelled from the spec, section 4.2: left subtree, node, right
subtree order; non-mutating. -/
def BSTree.inorder_traversal : BSTree α → List α
  | .leaf => []
  | .node l x r => l.inorder_traversal ++ x :: r.inorder_traversal

/-- Modelled from the spec, section 4.2: follow left children from the
root until none remain; none on an empty tree. -/
def BSTree.find_min : BSTree α → Option α
  | .leaf => none
  | .node BSTree.leaf x _ => some x
  | .node (BSTree.node a y b) _ _ => (BSTree.node a y b).find_min

/-- Modelled from the spec, section 4.2: follow right children from the
root until none remain; none on an empty tree. -/
def BSTree.find_max : BSTree α → Option α
  | .leaf => none
  | .node _ x BSTree.leaf => some x
  | .node _ _ (BSTree.node a y b) => (BSTree.node a y b).find_max

/-- A whole insertion sequence applied to the initially empty tree. -/
def BSTree.insertList [LinearOrder α] (l : List α) : BSTree α :=
  l.foldl BSTree.insert BSTree.leaf

/-- The ascending sort of the distinct values of a list, the reference
order of the spec (section 8, first property). -/
def ascendingDistinct [LinearOrder α] (l : List α) : List α :=
  l.dedup.insertionSort (· ≤ ·)

section BSTreeProofs

variable [LinearOrder α]

lemma BSTree.mem_inorder_insert (t : BSTree α) (v x : α) :
    x ∈ (t.insert v).inorder_traversal ↔
      x = v ∨ x ∈ t.inorder_traversal := by
  induction t with
  | leaf => simp [BSTree.insert, BSTree.inorder_traversal]
  | node l y r ihl ihr =>
    rcases lt_trichotomy v y with h | h | h
    · simp [BSTree.insert, h, BSTree.inorder_traversal, ihl, or_assoc]
    · subst h
      simp only [BSTree.insert, lt_irrefl, if_false]
      simp [BSTree.inorder_traversal]
      tauto
    · have h1 : ¬v < y := not_lt.2 h.le
      simp only [BSTree.insert, h1, if_false, h, if_true]
      simp [BSTree.inorder_traversal, ihr]
      tauto

lemma BSTree.sorted_inorder_insert (t : BSTree α) (v : α)
    (h : t.inorder_traversal.Sorted (· < ·)) :
    (t.insert v).inorder_traversal.Sorted (· < ·) := by
  induction t with
  | leaf => simp [BSTree.insert, BSTree.inorder_traversal, List.Sorted]
  | node l y r ihl ihr =>
    rw [BSTree.inorder_traversal, List.Sorted, List.pairwise_append] at h
    obtain ⟨hl, hyr, hcross⟩ := h
    rw [List.pairwise_cons] at hyr
    obtain ⟨hyall, hr⟩ := hyr
    rcases lt_trichotomy v y with hv | hv | hv
    · simp only [BSTree.insert, hv, if_true]
      rw [BSTree.inorder_traversal, List.Sorted, List.pairwise_append]
      refine ⟨ihl hl, ?_, ?_⟩
      · exact List.pairwise_cons.2 ⟨hyall, hr⟩
      · intro a ha b hb
        rcases (BSTree.mem_inorder_insert l v a).1 ha with rfl | ha'
        · rcases List.mem_cons.1 hb with rfl | hb'
          · exact hv
          · exact hv.trans (hyall b hb')
        · exact hcross a ha' b hb
    · subst hv
      simp only [BSTree.insert, lt_irrefl, if_false]
      rw [BSTree.inorder_traversal, List.Sorted, List.pairwise_append]
      exact ⟨hl, List.pairwise_cons.2 ⟨hyall, hr⟩, hcross⟩
    · have h1 : ¬v < y := not_lt.2 hv.le
      simp only [BSTree.insert, h1, if_false, hv, if_true]
      rw [BSTree.inorder_traversal, List.Sorted, List.pairwise_append]
      refine ⟨hl, ?_, ?_⟩
      · rw [List.pairwise_cons]
        refine ⟨?_, ihr hr⟩
        intro b hb
        rcases (BSTree.mem_inorder_insert r v b).1 hb with rfl | hb'
        · exact hv
        · exact hyall b hb'
      · intro a ha b hb
        rcases List.mem_cons.1 hb with rfl | hb'
        · exact hcross a ha b (List.mem_cons_self _ _)
        · rcases (BSTree.mem_inorder_insert r v b).1 hb' with rfl | hb''
          · exact (hcross a ha y (List.mem_cons_self _ _)).trans hv
          · exact hcross a ha b (List.mem_cons.2 (Or.inr hb''))

lemma BSTree.sorted_inorder_insertList (l : List α) :
    (BSTree.insertList l).inorder_traversal.Sorted (· < ·) ∧
      ∀ x, x ∈ (BSTree.insertList l).inorder_traversal ↔ x ∈ l := by
  suffices h : ∀ t : BSTree α, t.inorder_traversal.Sorted (· < ·) →
      (l.foldl BSTree.insert t).inorder_traversal.Sorted (· < ·) ∧
      ∀ x, x ∈ (l.foldl BSTree.insert t).inorder_traversal ↔
        x ∈ l ∨ x ∈ t.inorder_traversal by
    have h0 := h BSTree.leaf (by simp [BSTree.inorder_traversal, List.Sorted])
    refine ⟨h0.1, fun x => ?_⟩
    rw [BSTree.insertList, (h0.2 x)]
    simp [BSTree.inorder_traversal]
  induction l with
  | nil => intro t ht; simpa using ht
  | cons a rest ih =>
    intro t ht
    have h1 := ih (t.insert a) (BSTree.sorted_inorder_insert t a ht)
    refine ⟨h1.1, fun x => ?_⟩
    rw [List.foldl_cons, h1.2 x, BSTree.mem_inorder_insert]
    simp [or_assoc]
    tauto

/-- Claim C1: for every insertion sequence into the initially empty
binary search tree, the inorder traversal equals the ascending sort of
the distinct inserted values (duplicates are ignored by the consistent
no-op policy); the traversal is a pure function of the tree, so the
tree is not mutated. -/
theorem BSTree.inorder_insertList_eq_ascendingDistinct (l : List α) :
    (BSTree.insertList l).inorder_traversal = ascendingDistinct l := by
  obtain ⟨hsorted, hmem⟩ := BSTree.sorted_inorder_insertList l
  have hnodup : (BSTree.insertList l).inorder_traversal.Nodup :=
    hsorted.nodup
  have hperm : List.Perm (l.dedup.insertionSort (· ≤ ·)) l.dedup :=
    List.perm_insertionSort _ _
  have hnodup' : (l.dedup.insertionSort (· ≤ ·)).Nodup :=
    hperm.nodup_iff.2 (List.nodup_dedup l)
  have hmem' : ∀ x, x ∈ l.dedup.insertionSort (· ≤ ·) ↔ x ∈ l := by
    intro x
    rw [hperm.mem_iff, List.mem_dedup]
  have hfin : (BSTree.insertList l).inorder_traversal.toFinset =
      (l.dedup.insertionSort (· ≤ ·)).toFinset := by
    ext x
    simp only [List.mem_toFinset]
    rw [hmem x, hmem' x]
  have hp : List.Perm (BSTree.insertList l).inorder_traversal
      (l.dedup.insertionSort (· ≤ ·)) :=
    List.perm_of_nodup_nodup_toFinset_eq hnodup hnodup' hfin
  exact List.eq_of_perm_of_sorted hp
    (hsorted.le_of_lt)
    (List.sorted_insertionSort _ _)

end BSTreeProofs

/- ====================================================================
   Sorting algorithms, embedded from src/algorithms/algorithms.py
==================================================================== -/

lemma length_filter_lt_of_mem_not {p : α → Bool} {l : List α} {a : α}
    (ha : a ∈ l) (hpa : p a = false) : (l.filter p).length < l.length := by
  induction l with
  | nil => cases ha
  | cons x xs ih =>
    rcases List.mem_cons.1 ha with rfl | hxs
    · rw [List.filter_cons, hpa]
      exact Nat.lt_succ_of_le (List.length_filter_le p xs)
    · rw [List.filter_cons]
      cases hpx : p x
      · exact Nat.lt_succ_of_lt (ih hxs)
      · simpa using Nat.succ_lt_succ (ih hxs)

/-- Embedded from src/algorithms/algorithms.py, quick_sort (lines
31 to 56): lists of length at most one are returned as they are; the
pivot is the middle element; the list is partitioned into the values
below, equal to, and above the pivot; the outer parts are sorted
recursively and the three parts are concatenated. -/
def quick_sort (arr : List ℤ) : List ℤ :=
  if h : arr.length ≤ 1 then arr
  else
    let pivot := arr.get ⟨arr.length / 2, by omega⟩
    quick_sort (arr.filter (fun x => decide (x < pivot))) ++
      arr.filter (fun x => decide (x = pivot)) ++
      quick_sort (arr.filter (fun x => decide (pivot < x)))
termination_by arr.length
decreasing_by
  · exact length_filter_lt_of_mem_not
      (arr.get_mem (arr.length / 2) (by omega)) (by simp)
  · exact length_filter_lt_of_mem_not
      (arr.get_mem (arr.length / 2) (by omega)) (by simp)

/-- Embedded from src/algorithms/algorithms.py, the helper of
merge_sort (lines 84 to 102): while both lists have elements take the
smaller head (the left head on a tie), then add the remaining
elements. -/
def mergeHalves : List ℤ → List ℤ → List ℤ
  | [], right => right
  | left, [] => left
  | a :: left, b :: right =>
    if a ≤ b then a :: mergeHalves left (b :: right)
    else b :: mergeHalves (a :: left) right

/-- Embedded from src/algorithms/algorithms.py, merge_sort (lines
59 to 81): split at the middle index, sort the halves recursively and
merge them. -/
def merge_sort (arr : List ℤ) : List ℤ :=
  if h : arr.length ≤ 1 then arr
  else
    mergeHalves (merge_sort (arr.take (arr.length / 2)))
      (merge_sort (arr.drop (arr.length / 2)))
termination_by arr.length
decreasing_by
  · rw [List.length_take]; omega
  · rw [List.length_drop]; omega

lemma mergeHalves_perm :
    ∀ l r : List ℤ, List.Perm (mergeHalves l r) (l ++ r)
  | [], r => by simp [mergeHalves]
  | a :: l, [] => by simp [mergeHalves]
  | a :: l, b :: r => by
    rw [mergeHalves]
    by_cases h : a ≤ b
    · rw [if_pos h]
      exact (mergeHalves_perm l (b :: r)).cons a
    · rw [if_neg h]
      refine ((mergeHalves_perm (a :: l) r).cons b).trans ?_
      exact List.perm_middle.symm
termination_by l r => l.length + r.length

lemma mergeHalves_sorted :
    ∀ l r : List ℤ, l.Sorted (· ≤ ·) → r.Sorted (· ≤ ·) →
      (mergeHalves l r).Sorted (· ≤ ·)
  | [], r => fun _ hr => by simpa [mergeHalves] using hr
  | a :: l, [] => fun hl _ => by simpa [mergeHalves] using hl
  | a :: l, b :: r => fun hl hr => by
    rw [mergeHalves]
    obtain ⟨hal, hl'⟩ := List.sorted_cons.1 hl
    obtain ⟨hbr, hr'⟩ := List.sorted_cons.1 hr
    by_cases h : a ≤ b
    · rw [if_pos h]
      refine List.sorted_cons.2 ⟨?_, mergeHalves_sorted l (b :: r) hl' hr⟩
      intro x hx
      have hx' : x ∈ l ++ b :: r := (mergeHalves_perm l (b :: r)).mem_iff.1 hx
      rcases List.mem_append.1 hx' with hx1 | hx2
      · exact hal x hx1
      · rcases List.mem_cons.1 hx2 with rfl | hx3
        · exact h
        · exact h.trans (hbr x hx3)
    · rw [if_neg h]
      have hba : b ≤ a := (not_le.1 h).le
      refine List.sorted_cons.2 ⟨?_, mergeHalves_sorted (a :: l) r hl hr'⟩
      intro x hx
      have hx' : x ∈ a :: l ++ r := (mergeHalves_perm (a :: l) r).mem_iff.1 hx
      rcases List.mem_append.1 hx' with hx1 | hx2
      · rcases List.mem_cons.1 hx1 with rfl | hx3
        · exact hba
        · exact hba.trans (hal x hx3)
      · exact hbr x hx2
termination_by l r => l.length + r.length

lemma sorted_of_length_le_one {l : List ℤ} (h : l.length ≤ 1) :
    l.Sorted (· ≤ ·) := by
  match l with
  | [] => exact List.sorted_nil
  | [a] => exact List.sorted_singleton a
  | a :: b :: t => simp at h

lemma merge_sort_ok (arr : List ℤ) :
    (merge_sort arr).Sorted (· ≤ ·) ∧ List.Perm (merge_sort arr) arr := by
  by_cases h : arr.length ≤ 1
  · rw [merge_sort, dif_pos h]
    exact ⟨sorted_of_length_le_one h, List.Perm.refl arr⟩
  · have h1 := merge_sort_ok (arr.take (arr.length / 2))
    have h2 := merge_sort_ok (arr.drop (arr.length / 2))
    rw [merge_sort, dif_neg h]
    constructor
    · exact mergeHalves_sorted _ _ h1.1 h2.1
    · refine (mergeHalves_perm _ _).trans ?_
      refine (h1.2.append h2.2).trans ?_
      rw [List.take_append_drop]
termination_by arr.length
decreasing_by
  · rw [List.length_take]; omega
  · rw [List.length_drop]; omega

lemma quick_sort_ok (arr : List ℤ) :
    (quick_sort arr).Sorted (· ≤ ·) ∧ List.Perm (quick_sort arr) arr := by
  by_cases h : arr.length ≤ 1
  · rw [quick_sort, dif_pos h]
    exact ⟨sorted_of_length_le_one h, List.Perm.refl arr⟩
  · rw [quick_sort, dif_neg h]
    set pivot := arr.get ⟨arr.length / 2, by omega⟩ with hpivot
    have hlt : (arr.filter (fun x => decide (x < pivot))).length < arr.length :=
      length_filter_lt_of_mem_not
        (arr.get_mem (arr.length / 2) (by omega)) (by simp [hpivot])
    have hgt : (arr.filter (fun x => decide (pivot < x))).length < arr.length :=
      length_filter_lt_of_mem_not
        (arr.get_mem (arr.length / 2) (by omega)) (by simp [hpivot])
    have h1 := quick_sort_ok (arr.filter (fun x => decide (x < pivot)))
    have h2 := quick_sort_ok (arr.filter (fun x => decide (pivot < x)))
    have hperm3 : List.Perm
        (arr.filter (fun x => decide (x < pivot)) ++
          arr.filter (fun x => decide (x = pivot)) ++
          arr.filter (fun x => decide (pivot < x))) arr := by
      rw [List.perm_iff_count]
      intro x
      rw [List.count_append, List.count_append]
      rcases lt_trichotomy x pivot with hx | hx | hx
      · have e1 : List.count x (arr.filter (fun y => decide (y < pivot))) =
            List.count x arr := List.count_filter (by simp [hx])
        have e2 : List.count x (arr.filter (fun y => decide (y = pivot))) =
            0 := List.count_eq_zero.2 (by simp [List.mem_filter, hx.ne])
        have e3 : List.count x (arr.filter (fun y => decide (pivot < y))) =
            0 := List.count_eq_zero.2
            (by simp [List.mem_filter, not_lt.2 hx.le])
        rw [e1, e2, e3]
        omega
      · have e1 : List.count x (arr.filter (fun y => decide (y < pivot))) =
            0 := List.count_eq_zero.2 (by simp [List.mem_filter, hx])
        have e2 : List.count x (arr.filter (fun y => decide (y = pivot))) =
            List.count x arr := List.count_filter (by simp [hx])
        have e3 : List.count x (arr.filter (fun y => decide (pivot < y))) =
            0 := List.count_eq_zero.2 (by simp [List.mem_filter, hx])
        rw [e1, e2, e3]
        omega
      · have e1 : List.count x (arr.filter (fun y => decide (y < pivot))) =
            0 := List.count_eq_zero.2
            (by simp [List.mem_filter, not_lt.2 hx.le])
        have e2 : List.count x (arr.filter (fun y => decide (y = pivot))) =
            0 := List.count_eq_zero.2 (by simp [List.mem_filter, hx.ne.symm])
        have e3 : List.count x (arr.filter (fun y => decide (pivot < y))) =
            List.count x arr := List.count_filter (by simp [hx])
        rw [e1, e2, e3]
        omega
    have hmemlt : ∀ x ∈ quick_sort (arr.filter (fun x => decide (x < pivot))),
        x < pivot := by
      intro x hx
      have := h1.2.mem_iff.1 hx
      simpa using (List.mem_filter.1 this).2
    have hmemgt : ∀ x ∈ quick_sort (arr.filter (fun x => decide (pivot < x))),
        pivot < x := by
      intro x hx
      have := h2.2.mem_iff.1 hx
      simpa using (List.mem_filter.1 this).2
    have hmemeq : ∀ x ∈ arr.filter (fun x => decide (x = pivot)),
        x = pivot := by
      intro x hx
      simpa using (List.mem_filter.1 hx).2
    constructor
    · rw [List.Sorted, List.pairwise_append, List.pairwise_append]
      refine ⟨⟨h1.1, ?_, ?_⟩, h2.1, ?_⟩
      · exact List.Pairwise.imp (fun {a b} hab => hab) <| by
          refine List.pairwise_of_forall_mem_list ?_
          intro a ha b hb
          rw [hmemeq a ha, hmemeq b hb]
      · intro a ha b hb
        exact ((hmemlt a ha).le.trans (hmemeq b hb).symm.le)
      · intro a ha b hb
        rcases List.mem_append.1 ha with ha1 | ha2
        · exact ((hmemlt a ha1).trans (hmemgt b hb)).le
        · exact ((hmemeq a ha2).le.trans (hmemgt b hb).le)
    · exact ((h1.2.append (List.Perm.refl _)).append h2.2).trans hperm3
termination_by arr.length
decreasing_by
  · exact hlt
  · exact hgt

/-- Claim C8: on every list of integers the two independent sorting
implementations agree, and their common value is the ascending sort of
the input (here the insertion sort of the Mathlib library acts as the
reference ascending sort). -/
theorem quick_sort_eq_merge_sort (arr : List ℤ) :
    quick_sort arr = merge_sort arr ∧
      quick_sort arr = arr.insertionSort (· ≤ ·) := by
  have hq := quick_sort_ok arr
  have hm := merge_sort_ok arr
  have href : (arr.insertionSort (· ≤ ·)).Sorted (· ≤ ·) :=
    List.sorted_insertionSort _ _
  have hrefp : List.Perm (arr.insertionSort (· ≤ ·)) arr :=
    List.perm_insertionSort _ _
  have h1 : quick_sort arr = arr.insertionSort (· ≤ ·) :=
    List.eq_of_perm_of_sorted (hq.2.trans hrefp.symm) hq.1 href
  have h2 : merge_sort arr = arr.insertionSort (· ≤ ·) :=
    List.eq_of_perm_of_sorted (hm.2.trans hrefp.symm) hm.1 href
  exact ⟨h1.trans h2.symm, h1⟩

/- ====================================================================
   Fibonacci, embedded from src/algorithms/algorithms.py
==================================================================== -/

/-- One iteration of the fibonacci loop: prev, curr = curr, prev + curr. -/
def fibLoopStep (pc : ℤ × ℤ) : ℤ × ℤ := (pc.2, pc.1 + pc.2)

/-- Embedded from src/algorithms/algorithms.py, fibonacci (lines 207
to 228): arguments at most one are returned unchanged (the argument is
a Python int, so negative inputs flow through this branch); otherwise
the loop for the range from 2 to n runs n - 1 iterations starting from
the pair (0, 1) and the current value is returned. -/
def fibonacci (n : ℤ) : ℤ :=
  if n ≤ 1 then n
  else (fibLoopStep^[(n - 1).toNat] (0, 1)).2

/-- The Fibonacci recurrence named by the claim: fib 0 = 0, fib 1 = 1,
fib (n+2) = fib n + fib (n+1). -/
def fibSpec : ℕ → ℤ
  | 0 => 0
  | 1 => 1
  | n + 2 => fibSpec n + fibSpec (n + 1)

lemma fibLoop_invariant (k : ℕ) :
    fibLoopStep^[k] (0, 1) = (fibSpec k, fibSpec (k + 1)) := by
  induction k with
  | zero => simp [fibSpec]
  | succ k ih =>
    rw [Function.iterate_succ_apply', ih]
    simp [fibLoopStep, fibSpec]

/-- Claim C10: for every integer n at most 1 the function returns n
itself, so negative inputs are returned unchanged; for n at least 2 it
returns the nth Fibonacci number of the standard recurrence. -/
theorem fibonacci_spec (n : ℤ) :
    (n ≤ 1 → fibonacci n = n) ∧
      (2 ≤ n → fibonacci n = fibSpec n.toNat) := by
  constructor
  · intro h
    rw [fibonacci, if_pos h]
  · intro h
    rw [fibonacci, if_neg (by omega), fibLoop_invariant]
    have : (n - 1).toNat + 1 = n.toNat := by omega
    rw [this]

/-- Closed witness for the C10 theorem: the negative input -3 is
returned unchanged and fibonacci 10 equals the recurrence value. -/
theorem fibonacci_spec_witness :
    fibonacci (-3) = -3 ∧ fibonacci 10 = fibSpec 10 := by
  constructor
  · exact (fibonacci_spec (-3)).1 (by decide)
  · exact (fibonacci_spec 10).2 (by decide)

/- ====================================================================
   Binary-heap index combinatorics, shared by the modelled Min-Heap
   and by the embedded heap_sort
==================================================================== -/

/-- Parent index in the dense binary-tree layout where index i has
children 2i+1 and 2i+2. -/
def parentIdx (i : ℕ) : ℕ := (i - 1) / 2

/-- Swap the entries at two indices of an index-addressable sequence. -/
def swapAt (f : ℕ → α) (i j : ℕ) : ℕ → α :=
  fun k => if k = i then f j else if k = j then f i else f k

/-- The first n entries of an index-addressable sequence as a list. -/
def heapToList (f : ℕ → α) (n : ℕ) : List α := (List.range n).map f

/-- Membership of the subtree rooted at an index in the dense binary
tree layout. -/
inductive InSub : ℕ → ℕ → Prop
  | refl (i : ℕ) : InSub i i
  | left {i j : ℕ} : InSub i j → InSub i (2 * j + 1)
  | right {i j : ℕ} : InSub i j → InSub i (2 * j + 2)

lemma parentIdx_left (j : ℕ) : parentIdx (2 * j + 1) = j := by
  simp only [parentIdx]; omega

lemma parentIdx_right (j : ℕ) : parentIdx (2 * j + 2) = j := by
  simp only [parentIdx]; omega

lemma parentIdx_lt {j : ℕ} (h : 0 < j) : parentIdx j < j := by
  simp only [parentIdx]; omega

lemma parentIdx_le (j : ℕ) : parentIdx j ≤ j := by
  simp only [parentIdx]; omega

lemma child_of_parent {c : ℕ} (h : c ≠ 0) :
    c = 2 * parentIdx c + 1 ∨ c = 2 * parentIdx c + 2 := by
  simp only [parentIdx]; omega

lemma InSub.le {i j : ℕ} (h : InSub i j) : i ≤ j := by
  induction h with
  | refl => exact Nat.le_refl _
  | left _ ih => omega
  | right _ ih => omega

lemma InSub.trans {i j k : ℕ} (h1 : InSub i j) (h2 : InSub j k) :
    InSub i k := by
  induction h2 with
  | refl => exact h1
  | left _ ih => exact InSub.left ih
  | right _ ih => exact InSub.right ih

lemma InSub_cases {i j : ℕ} (h : InSub i j) :
    j = i ∨ ∃ q, InSub i q ∧ (j = 2 * q + 1 ∨ j = 2 * q + 2) := by
  cases h with
  | refl => exact Or.inl rfl
  | left h' => exact Or.inr ⟨_, h', Or.inl rfl⟩
  | right h' => exact Or.inr ⟨_, h', Or.inr rfl⟩

lemma InSub_iff_iterate {i j : ℕ} :
    InSub i j ↔ ∃ k, parentIdx^[k] j = i := by
  constructor
  · intro h
    induction h with
    | refl => exact ⟨0, rfl⟩
    | left _ ih =>
      obtain ⟨k, hk⟩ := ih
      exact ⟨k + 1, by
        rw [Function.iterate_succ_apply, parentIdx_left]; exact hk⟩
    | right _ ih =>
      obtain ⟨k, hk⟩ := ih
      exact ⟨k + 1, by
        rw [Function.iterate_succ_apply, parentIdx_right]; exact hk⟩
  · rintro ⟨k, hk⟩
    induction k generalizing j with
    | zero => rw [Function.iterate_zero_apply] at hk; rw [hk]; exact .refl i
    | succ k ih =>
      rw [Function.iterate_succ_apply] at hk
      rcases Nat.eq_zero_or_pos j with rfl | hj
      · have hz : ∀ m, parentIdx^[m] 0 = 0 := by
          intro m
          induction m with
          | zero => rfl
          | succ m ihm =>
            rw [Function.iterate_succ_apply]
            simpa [parentIdx] using ihm
        have : i = 0 := by
          have := hz (k + 1)
          rw [Function.iterate_succ_apply] at this
          rw [← hk]
          simp [parentIdx] at this ⊢
          exact this.symm ▸ rfl
        rw [this]; exact .refl 0
      · have hchild := child_of_parent (Nat.pos_iff_ne_zero.1 hj)
        have hp : InSub i (parentIdx j) := ih hk
        rcases hchild with hc | hc
        · rw [hc]; exact hp.left
        · rw [hc]; exact hp.right

lemma parentIdx_iterate_le (k j : ℕ) : parentIdx^[k] j ≤ j := by
  induction k generalizing j with
  | zero => simp
  | succ k ih =>
    rw [Function.iterate_succ_apply]
    exact (ih (parentIdx j)).trans (parentIdx_le j)

lemma InSub.chain {i j c : ℕ} (hic : InSub i c) (hjc : InSub j c)
    (hij : i ≤ j) : InSub i j := by
  obtain ⟨a, ha⟩ := InSub_iff_iterate.1 hic
  obtain ⟨b, hb⟩ := InSub_iff_iterate.1 hjc
  rcases le_or_lt b a with hba | hab
  · refine InSub_iff_iterate.2 ⟨a - b, ?_⟩
    have : a = (a - b) + b := by omega
    rw [this, Function.iterate_add_apply, hb] at ha
    exact ha
  · have : b = (b - a) + a := by omega
    rw [this, Function.iterate_add_apply, ha] at hb
    have hle : j ≤ i := hb ▸ parentIdx_iterate_le (b - a) i
    have : i = j := le_antisymm hij hle
    rw [this]; exact .refl j

lemma swapAt_eq_comp [DecidableEq ℕ] (f : ℕ → α) (i j : ℕ) :
    swapAt f i j = f ∘ (Equiv.swap i j) := by
  funext k
  simp only [swapAt, Function.comp_apply, Equiv.swap_apply_def]
  split_ifs <;> rfl

lemma range_map_swap_perm {i j n : ℕ} (hi : i < n) (hj : j < n) :
    List.Perm ((List.range n).map (Equiv.swap i j)) (List.range n) := by
  have hnd : ((List.range n).map (Equiv.swap i j)).Nodup :=
    (List.nodup_range n).map (Equiv.injective _)
  have hfin : ((List.range n).map (Equiv.swap i j)).toFinset =
      (List.range n).toFinset := by
    ext x
    simp only [List.mem_toFinset, List.mem_map, List.mem_range]
    constructor
    · rintro ⟨k, hk, rfl⟩
      rw [Equiv.swap_apply_def]
      split_ifs <;> omega
    · intro hx
      refine ⟨Equiv.swap i j x, ?_, Equiv.swap_apply_self i j x⟩
      rw [Equiv.swap_apply_def]
      split_ifs <;> omega
  exact List.perm_of_nodup_nodup_toFinset_eq hnd (List.nodup_range n) hfin

lemma heapToList_swapAt_perm {i j n : ℕ} (f : ℕ → α)
    (hi : i < n) (hj : j < n) :
    List.Perm (heapToList (swapAt f i j) n) (heapToList f n) := by
  rw [heapToList, heapToList, swapAt_eq_comp, ← List.map_map]
  exact (range_map_swap_perm hi hj).map f

/-- Candidate for the sift-down swap: the smaller of the node and its
left child, within the current size. -/
def sdCand [LinearOrder α] (f : ℕ → α) (n i : ℕ) : ℕ :=
  if 2 * i + 1 < n ∧ f (2 * i + 1) < f i then 2 * i + 1 else i

/-- Modelled from the spec, section 4.3: the index among a node and its
children within the current size that holds the smallest value (the
node itself when the heap property already holds there). -/
def smallerChildTarget [LinearOrder α] (f : ℕ → α) (n i : ℕ) : ℕ :=
  if 2 * i + 2 < n ∧ f (2 * i + 2) < f (sdCand f n i) then 2 * i + 2
  else sdCand f n i

lemma smallerChildTarget_spec [LinearOrder α] (f : ℕ → α) (n i : ℕ) :
    (smallerChildTarget f n i = i ∨
      ((smallerChildTarget f n i = 2 * i + 1 ∨
          smallerChildTarget f n i = 2 * i + 2) ∧
        smallerChildTarget f n i < n ∧
        f (smallerChildTarget f n i) < f i)) ∧
    (2 * i + 1 < n → f (smallerChildTarget f n i) ≤ f (2 * i + 1)) ∧
    (2 * i + 2 < n → f (smallerChildTarget f n i) ≤ f (2 * i + 2)) ∧
    f (smallerChildTarget f n i) ≤ f i := by
  unfold smallerChildTarget sdCand
  split_ifs with h1 h2 h3
  · -- left child smaller than node, right child smaller still
    refine ⟨Or.inr ⟨Or.inr rfl, h2.1, h2.2.trans h1.2⟩, ?_, ?_, ?_⟩
    · intro _; exact h2.2.le
    · intro _; exact le_refl _
    · exact (h2.2.trans h1.2).le
  · -- left child smaller than node, right child not smaller
    refine ⟨Or.inr ⟨Or.inl rfl, h1.1, h1.2⟩, ?_, ?_, ?_⟩
    · intro _; exact le_refl _
    · intro hr
      rcases not_and.1 h2 hr with h
      exact not_lt.1 h
    · exact h1.2.le
  · -- node at most its left child, right child smaller than node
    refine ⟨Or.inr ⟨Or.inr rfl, h3.1, h3.2⟩, ?_, ?_, ?_⟩
    · intro hl
      have hil : f i ≤ f (2 * i + 1) := not_lt.1 (not_and.1 h1 hl)
      exact (h3.2.trans_le hil).le
    · intro _; exact le_refl _
    · exact h3.2.le
  · -- neither child smaller: stay at the node
    refine ⟨Or.inl rfl, ?_, ?_, le_refl _⟩
    · intro hl
      exact not_lt.1 (not_and.1 h1 hl)
    · intro hr
      exact not_lt.1 (not_and.1 h3 hr)

lemma smallerChildTarget_child [LinearOrder α] {f : ℕ → α} {n i : ℕ}
    (h : smallerChildTarget f n i ≠ i) :
    (smallerChildTarget f n i = 2 * i + 1 ∨
      smallerChildTarget f n i = 2 * i + 2) ∧
      smallerChildTarget f n i < n ∧
      f (smallerChildTarget f n i) < f i ∧
      i < smallerChildTarget f n i ∧
      InSub i (smallerChildTarget f n i) := by
  have hs := (smallerChildTarget_spec f n i).1.resolve_left h
  refine ⟨hs.1, hs.2.1, hs.2.2, ?_, ?_⟩
  · rcases hs.1 with hc | hc <;> omega
  · rcases hs.1 with hc | hc
    · rw [hc]; exact (InSub.refl i).left
    · rw [hc]; exact (InSub.refl i).right

/-- Modelled from the spec, section 4.3: sift-down repeatedly swaps a
node with its smaller child until the heap invariant holds there or it
has no children within the current size. -/
def siftDown [LinearOrder α] (f : ℕ → α) (n i : ℕ) : ℕ → α :=
  if h : smallerChildTarget f n i ≠ i then
    siftDown (swapAt f i (smallerChildTarget f n i)) n
      (smallerChildTarget f n i)
  else f
termination_by n - i
decreasing_by
  have hc := smallerChildTarget_child h
  omega

/-- The heap property at one node: the node value is at most the value
of each of its children within the current size. -/
def nodeOK [LinearOrder α] (f : ℕ → α) (n j : ℕ) : Prop :=
  (2 * j + 1 < n → f j ≤ f (2 * j + 1)) ∧
    (2 * j + 2 < n → f j ≤ f (2 * j + 2))

/-- Invariant of the spec, section 3: every element of the dense
sequence is at most each of its children. -/
def IsMinHeapOn [LinearOrder α] (f : ℕ → α) (n : ℕ) : Prop :=
  ∀ j, nodeOK f n j

lemma not_inSub_of_lt {i k : ℕ} (h : k < i) : ¬ InSub i k :=
  fun hin => absurd hin.le (by omega)

lemma siftDown_frame [LinearOrder α] (f : ℕ → α) (n i : ℕ) :
    ∀ k, ¬ InSub i k → siftDown f n i k = f k := by
  by_cases h : smallerChildTarget f n i ≠ i
  · intro k hk
    obtain ⟨hshape, hmn, hlt, him, hsub⟩ := smallerChildTarget_child h
    rw [siftDown, dif_pos h]
    rw [siftDown_frame (swapAt f i (smallerChildTarget f n i)) n
      (smallerChildTarget f n i) k
      (fun hin => hk (hsub.trans hin))]
    have hki : k ≠ i := fun he => hk (he ▸ InSub.refl i)
    have hkm : k ≠ smallerChildTarget f n i :=
      fun he => hk (he ▸ hsub)
    simp [swapAt, hki, hkm]
  · intro k _
    rw [siftDown, dif_neg h]
termination_by n - i
decreasing_by
  have hc := smallerChildTarget_child h
  omega

lemma siftDown_frame_ge [LinearOrder α] (f : ℕ → α) (n i : ℕ) :
    ∀ k, n ≤ k → siftDown f n i k = f k := by
  by_cases h : smallerChildTarget f n i ≠ i
  · intro k hk
    obtain ⟨hshape, hmn, hlt, him, hsub⟩ := smallerChildTarget_child h
    rw [siftDown, dif_pos h]
    rw [siftDown_frame_ge (swapAt f i (smallerChildTarget f n i)) n
      (smallerChildTarget f n i) k hk]
    have hki : k ≠ i := by omega
    have hkm : k ≠ smallerChildTarget f n i := by omega
    simp [swapAt, hki, hkm]
  · intro k _
    rw [siftDown, dif_neg h]
termination_by n - i
decreasing_by
  have hc := smallerChildTarget_child h
  omega

lemma siftDown_perm [LinearOrder α] (f : ℕ → α) (n i : ℕ) :
    List.Perm (heapToList (siftDown f n i) n) (heapToList f n) := by
  by_cases h : smallerChildTarget f n i ≠ i
  · obtain ⟨hshape, hmn, hlt, him, hsub⟩ := smallerChildTarget_child h
    rw [siftDown, dif_pos h]
    refine (siftDown_perm (swapAt f i (smallerChildTarget f n i)) n
      (smallerChildTarget f n i)).trans ?_
    exact heapToList_swapAt_perm f (by omega) hmn
  · rw [siftDown, dif_neg h]
termination_by n - i
decreasing_by
  have hc := smallerChildTarget_child h
  omega

lemma siftDown_lower_bound [LinearOrder α] {f : ℕ → α} {n i : ℕ} {B : α}
    (hB : ∀ c, InSub i c → c < n → B ≤ f c) :
    ∀ c, InSub i c → c < n → B ≤ siftDown f n i c := by
  by_cases h : smallerChildTarget f n i ≠ i
  · obtain ⟨hshape, hmn, hlt, him, hsub⟩ := smallerChildTarget_child h
    set m := smallerChildTarget f n i with hmdef
    have hin : i < n := by omega
    have hB' : ∀ c, InSub m c → c < n →
        B ≤ swapAt f i m c := by
      intro c hc hcn
      have hci : c ≠ i := fun he => absurd (he ▸ hc).le (by omega)
      by_cases hcm : c = m
      · subst hcm
        simp only [swapAt, if_neg hci, if_pos rfl]
        exact hB i (InSub.refl i) hin
      · simp only [swapAt, if_neg hci, if_neg hcm]
        exact hB c (hsub.trans hc) hcn
    intro c hc hcn
    rw [siftDown, dif_pos h]
    by_cases hcm : InSub m c
    · exact siftDown_lower_bound hB' c hcm hcn
    · rw [siftDown_frame _ _ _ c hcm]
      by_cases hci : c = i
      · subst hci
        simp only [swapAt, if_pos rfl]
        exact hB m hsub hmn
      · have hcm' : c ≠ m := fun he => hcm (he ▸ InSub.refl m)
        simp only [swapAt, if_neg hci, if_neg hcm']
        exact hB c hc hcn
  · intro c hc hcn
    rw [siftDown, dif_neg h]
    exact hB c hc hcn
termination_by n - i
decreasing_by
  have hc := smallerChildTarget_child h
  omega

lemma subtree_ge [LinearOrder α] {f : ℕ → α} {n i m : ℕ}
    (H1 : ∀ j, i < j → nodeOK f n j) (him : i < m) :
    ∀ c, InSub m c → c < n → f m ≤ f c := by
  intro c hc
  induction hc with
  | refl => exact fun _ => le_refl _
  | @left j hq ih =>
    intro hcn
    exact (ih (by omega)).trans
      ((H1 j (lt_of_lt_of_le him hq.le)).1 hcn)
  | @right j hq ih =>
    intro hcn
    exact (ih (by omega)).trans
      ((H1 j (lt_of_lt_of_le him hq.le)).2 hcn)

lemma siftDown_restores [LinearOrder α] {f : ℕ → α} {n : ℕ} (i : ℕ)
    (H1 : ∀ j, i < j → nodeOK f n j) :
    ∀ j, i ≤ j → nodeOK (siftDown f n i) n j := by
  by_cases h : smallerChildTarget f n i ≠ i
  · obtain ⟨hshape, hmn, hflt, him, hsub⟩ := smallerChildTarget_child h
    have hspec := smallerChildTarget_spec f n i
    rw [siftDown, dif_pos h]
    set m := smallerChildTarget f n i with hm
    set fs := swapAt f i m with hfs
    have hin : i < n := him.trans hmn
    have hfsi : fs i = f m := by
      rw [hfs]; simp [swapAt]
    have hfsm : fs m = f i := by
      have hne : m ≠ i := by omega
      rw [hfs]; simp [swapAt, hne]
    have hfsother : ∀ k, k ≠ i → k ≠ m → fs k = f k := by
      intro k h1 h2
      rw [hfs]; simp [swapAt, h1, h2]
    have H1' : ∀ j, m < j → nodeOK fs n j := by
      intro j hmj
      have e1 : fs j = f j := hfsother j (by omega) (by omega)
      have e2 : fs (2 * j + 1) = f (2 * j + 1) :=
        hfsother _ (by omega) (by omega)
      have e3 : fs (2 * j + 2) = f (2 * j + 2) :=
        hfsother _ (by omega) (by omega)
      have hj := H1 j (by omega)
      refine ⟨fun hl => ?_, fun hr => ?_⟩
      · rw [e1, e2]; exact hj.1 hl
      · rw [e1, e3]; exact hj.2 hr
    have IH := siftDown_restores m H1'
    have hlow : ∀ c, InSub m c → c < n → f m ≤ siftDown fs n m c := by
      apply siftDown_lower_bound
      intro c hc hcn
      by_cases hcm : c = m
      · subst hcm; rw [hfsm]; exact hflt.le
      · have hci : c ≠ i := fun he => absurd (he ▸ hc).le (by omega)
        rw [hfsother c hci hcm]
        exact subtree_ge H1 him c hc hcn
    have hframe : ∀ k, ¬ InSub m k → siftDown fs n m k = fs k :=
      siftDown_frame fs n m
    have hmsub_i : ¬ InSub m i := not_inSub_of_lt him
    intro j hij
    rcases lt_or_le j m with hjm | hjm
    · rcases eq_or_lt_of_le hij with rfl | hij'
      · -- the root of the sift: its value is now the old child minimum
        have hchild_le : ∀ c, (c = 2 * i + 1 ∨ c = 2 * i + 2) → c < n →
            f m ≤ f c := by
          intro c hcs hcn
          rcases hcs with rfl | rfl
          · exact hspec.2.1 hcn
          · exact hspec.2.2.1 hcn
        have hval_i : siftDown fs n m i = f m := by
          rw [hframe i hmsub_i, hfsi]
        have hsib : ∀ s, (s = 2 * i + 1 ∨ s = 2 * i + 2) → s ≠ m →
            siftDown fs n m s = f s := by
          intro s hss hsm
          have hns : ¬ InSub m s := by
            intro hin'
            rcases InSub_cases hin' with he | ⟨q, hq, hqs⟩
            · exact hsm he
            · have hqi : q = i := by
                rcases hss with rfl | rfl <;> rcases hqs with he | he <;> omega
              subst hqi
              exact absurd hq.le (by omega)
          rw [hframe s hns]
          have hsi : s ≠ i := by rcases hss with rfl | rfl <;> omega
          exact hfsother s hsi hsm
        have hchild : ∀ c, (c = 2 * i + 1 ∨ c = 2 * i + 2) → c < n →
            siftDown fs n m i ≤ siftDown fs n m c := by
          intro c hcs hcn
          rw [hval_i]
          by_cases hcm : c = m
          · subst hcm
            exact hlow m (InSub.refl m) hmn
          · rw [hsib c hcs hcm]
            exact hchild_le c hcs hcn
        exact ⟨fun hl => hchild _ (Or.inl rfl) hl,
          fun hr => hchild _ (Or.inr rfl) hr⟩
      · -- strictly between the sift root and the swapped child:
        -- the subtree of m does not touch this node or its children
        have hjs : ¬ InSub m j := not_inSub_of_lt hjm
        have hchildnot : ∀ c, (c = 2 * j + 1 ∨ c = 2 * j + 2) →
            ¬ InSub m c := by
          intro c hcs hin'
          have hjc : InSub j c := by
            rcases hcs with rfl | rfl
            exacts [(InSub.refl j).left, (InSub.refl j).right]
          have hjm' : InSub j m := InSub.chain hjc hin' (le_of_lt hjm)
          rcases InSub_cases hjm' with he | ⟨q, hq, hqs⟩
          · omega
          · have hqi : q = i := by
              rcases hshape with hsh | hsh <;> rcases hqs with he | he <;> omega
            subst hqi
            exact absurd hq.le (by omega)
        have ej : siftDown fs n m j = f j := by
          rw [hframe j hjs]
          exact hfsother j (by omega) (by omega)
        have ec : ∀ c, (c = 2 * j + 1 ∨ c = 2 * j + 2) →
            siftDown fs n m c = f c := by
          intro c hcs
          rw [hframe c (hchildnot c hcs)]
          have hci : c ≠ i := by rcases hcs with rfl | rfl <;> omega
          have hcm2 : c ≠ m := fun he => (hchildnot c hcs) (he ▸ InSub.refl m)
          exact hfsother c hci hcm2
        have hnok := H1 j hij'
        refine ⟨fun hl => ?_, fun hr => ?_⟩
        · rw [ej, ec _ (Or.inl rfl)]; exact hnok.1 hl
        · rw [ej, ec _ (Or.inr rfl)]; exact hnok.2 hr
    · exact IH j hjm
  · rw [siftDown, dif_neg h]
    push_neg at h
    intro j hij
    rcases eq_or_lt_of_le hij with rfl | hlt
    · have hspec := smallerChildTarget_spec f n i
      rw [h] at hspec
      exact ⟨hspec.2.1, hspec.2.2.1⟩
    · exact H1 j hlt
termination_by n - i
decreasing_by
  have hc := smallerChildTarget_child h
  omega

lemma isMinHeapOn_root_le [LinearOrder α] {f : ℕ → α} {n : ℕ}
    (H : IsMinHeapOn f n) : ∀ j, j < n → f 0 ≤ f j := by
  intro j
  induction j using Nat.strong_induction_on with
  | _ j ih =>
    intro hjn
    rcases Nat.eq_zero_or_pos j with rfl | hj
    · exact le_refl _
    · have hp := parentIdx_lt hj
      have hchild := child_of_parent (Nat.pos_iff_ne_zero.1 hj)
      have h0p : f 0 ≤ f (parentIdx j) := ih _ hp (by omega)
      rcases hchild with he | he
      · have h1 : 2 * parentIdx j + 1 < n := by omega
        have h2 := (H (parentIdx j)).1 h1
        rw [← he] at h2
        exact h0p.trans h2
      · have h1 : 2 * parentIdx j + 2 < n := by omega
        have h2 := (H (parentIdx j)).2 h1
        rw [← he] at h2
        exact h0p.trans h2

/-- Modelled from the spec, section 4.3: sift-up repeatedly swaps a
node with its parent while it is smaller than the parent, until the
invariant holds or the root is reached. -/
def siftUp [LinearOrder α] (f : ℕ → α) (i : ℕ) : ℕ → α :=
  if h : 0 < i ∧ f i < f (parentIdx i) then
    siftUp (swapAt f i (parentIdx i)) (parentIdx i)
  else f
termination_by i
decreasing_by exact parentIdx_lt h.1

/-- Invariant during sift-up: every parent-child edge within the size
holds except possibly the edge into the sifted index, and the
grandparent of the sifted index is already at most its children. -/
def UpInv [LinearOrder α] (f : ℕ → α) (n i : ℕ) : Prop :=
  (∀ j c, c < n → (c = 2 * j + 1 ∨ c = 2 * j + 2) → c ≠ i → f j ≤ f c) ∧
  (∀ c, c < n → (c = 2 * i + 1 ∨ c = 2 * i + 2) → 0 < i →
    f (parentIdx i) ≤ f c)

lemma siftUp_perm [LinearOrder α] (f : ℕ → α) {n : ℕ} (i : ℕ)
    (hin : i < n) :
    List.Perm (heapToList (siftUp f i) n) (heapToList f n) := by
  by_cases h : 0 < i ∧ f i < f (parentIdx i)
  · rw [siftUp, dif_pos h]
    refine (siftUp_perm _ (parentIdx i)
      (lt_trans (parentIdx_lt h.1) hin)).trans ?_
    exact heapToList_swapAt_perm f hin (lt_trans (parentIdx_lt h.1) hin)
  · rw [siftUp, dif_neg h]
termination_by i
decreasing_by exact parentIdx_lt h.1

lemma siftUp_restores [LinearOrder α] {f : ℕ → α} {n : ℕ} (i : ℕ)
    (hin : i < n) (hI : UpInv f n i) : IsMinHeapOn (siftUp f i) n := by
  by_cases h : 0 < i ∧ f i < f (parentIdx i)
  · rw [siftUp, dif_pos h]
    obtain ⟨hi0, hflt⟩ := h
    set p := parentIdx i with hp
    have hpi : p < i := parentIdx_lt hi0
    set fs := swapAt f i p with hfs
    have hfsi : fs i = f p := by rw [hfs]; simp [swapAt]
    have hfsp : fs p = f i := by
      have hne : p ≠ i := by omega
      rw [hfs]; simp [swapAt, hne]
    have hfsother : ∀ k, k ≠ i → k ≠ p → fs k = f k := by
      intro k h1 h2; rw [hfs]; simp [swapAt, h1, h2]
    apply siftUp_restores p (by omega)
    constructor
    · intro j c hcn hcs hcp
      by_cases hci : c = i
      · subst hci
        have hjp : j = p := by
          rw [hp]
          rcases hcs with he | he
          · rw [he, parentIdx_left]
          · rw [he, parentIdx_right]
        rw [hjp, hfsp, hfsi]
        exact hflt.le
      · rw [hfsother c hci hcp]
        by_cases hji : j = i
        · subst hji
          rw [hfsi]
          exact hI.2 c hcn hcs hi0
        · by_cases hjp : j = p
          · subst hjp
            rw [hfsp]
            exact hflt.le.trans (hI.1 p c hcn hcs hci)
          · rw [hfsother j hji hjp]
            exact hI.1 j c hcn hcs hci
    · intro c hcn hcs hp0
      have hg : parentIdx p ≠ i := by
        have := parentIdx_lt hp0; omega
      have hgp : parentIdx p ≠ p := by
        have := parentIdx_lt hp0; omega
      rw [hfsother _ hg hgp]
      have hpedge : f (parentIdx p) ≤ f p :=
        hI.1 (parentIdx p) p (by omega)
          (child_of_parent (by omega)) (by omega)
      by_cases hci : c = i
      · subst hci
        rw [hfsi]
        exact hpedge
      · have hcp2 : c ≠ p := by rcases hcs with rfl | rfl <;> omega
        rw [hfsother c hci hcp2]
        exact hpedge.trans (hI.1 p c hcn hcs hci)
  · rw [siftUp, dif_neg h]
    push_neg at h
    intro j
    constructor
    · intro hl
      by_cases hc : 2 * j + 1 = i
      · have hi0 : 0 < i := by omega
        have hji : j = parentIdx i := by
          rw [← hc, parentIdx_left]
        have hc2 : 2 * parentIdx i + 1 = i := by rw [← hji]; exact hc
        rw [hji, hc2]
        exact h hi0
      · exact hI.1 j _ hl (Or.inl rfl) hc
    · intro hr
      by_cases hc : 2 * j + 2 = i
      · have hi0 : 0 < i := by omega
        have hji : j = parentIdx i := by
          rw [← hc, parentIdx_right]
        have hc2 : 2 * parentIdx i + 2 = i := by rw [← hji]; exact hc
        rw [hji, hc2]
        exact h hi0
      · exact hI.1 j _ hr (Or.inr rfl) hc
termination_by i
decreasing_by exact parentIdx_lt h.1

/- ====================================================================
   Min-Heap (modelled from the spec)
==================================================================== -/

/-- Modelled from the spec: data_structures.py is absent from src.
Section 3 of the spec: a dense, index-addressable sequence representing
a complete binary tree, where the element at index i has children at
2i+1 and 2i+2.  The sequence is a function from indices together with
the element count; indices at or beyond the count are never read. -/
structure MinHeap (α : Type) where
  size : ℕ
  arr : ℕ → α

/-- Modelled from the spec: every structure is created empty. -/
def MinHeap.emptyHeap [Inhabited α] : MinHeap α := ⟨0, fun _ => default⟩

/-- Modelled from the spec, section 4.3: insert appends the value at
the end of the backing sequence, then sifts it up. -/
def MinHeap.insert [LinearOrder α] (h : MinHeap α) (v : α) : MinHeap α :=
  ⟨h.size + 1,
    siftUp (fun k => if k = h.size then v else h.arr k) h.size⟩

/-- Modelled from the spec, section 4.3: peek returns the element at
index 0 without removing it; none if empty. -/
def MinHeap.peek (h : MinHeap α) : Option α :=
  if h.size = 0 then none else some (h.arr 0)

/-- Modelled from the spec, section 4.3: extract captures the root
value, moves the last element into the root position, shrinks the
sequence by one and sifts the root down; none on an empty heap, which
is left unchanged. -/
def MinHeap.extract_min [LinearOrder α] (h : MinHeap α) :
    Option α × MinHeap α :=
  if h.size = 0 then (none, h)
  else
    (some (h.arr 0),
      ⟨h.size - 1,
        siftDown
          (fun k => if k = 0 then h.arr (h.size - 1) else h.arr k)
          (h.size - 1) 0⟩)

/-- The stored values of a heap, in index order. -/
def MinHeap.toListH (h : MinHeap α) : List α := heapToList h.arr h.size

/-- The representation invariant of the heap. -/
def MinHeap.inv [LinearOrder α] (h : MinHeap α) : Prop :=
  IsMinHeapOn h.arr h.size

/-- A whole insertion sequence applied to the initially empty heap. -/
def MinHeap.insertAll [Inhabited α] [LinearOrder α] (l : List α) :
    MinHeap α :=
  l.foldl MinHeap.insert MinHeap.emptyHeap

/-- Repeated extraction with explicit fuel; with fuel equal to the
current size this is exactly the loop that extracts until empty. -/
def MinHeap.drainAux [LinearOrder α] : ℕ → MinHeap α → List α
  | 0, _ => []
  | fuel + 1, h =>
    match h.extract_min with
    | (none, _) => []
    | (some v, h2) => v :: MinHeap.drainAux fuel h2

/-- Modelled from the tests: call extract_min until the size is zero,
collecting the returned values in order. -/
def MinHeap.drain [LinearOrder α] (h : MinHeap α) : List α :=
  MinHeap.drainAux h.size h

section MinHeapProofs

variable [LinearOrder α]

lemma update_precond {g : ℕ → α} {n : ℕ} (v : α)
    (hh : IsMinHeapOn g n) :
    UpInv (fun k => if k = n then v else g k) (n + 1) n := by
  constructor
  · intro j c hcn hcs hci
    have hcn' : c < n := by omega
    have hjn : j ≠ n := by rcases hcs with rfl | rfl <;> omega
    simp only [if_neg hjn, if_neg hci]
    rcases hcs with rfl | rfl
    · exact (hh j).1 hcn'
    · exact (hh j).2 hcn'
  · intro c hcn hcs _
    rcases hcs with rfl | rfl <;> exact absurd hcn (by omega)

lemma shrink_precond {g : ℕ → α} {n : ℕ} (hh : IsMinHeapOn g n) :
    ∀ j, 0 < j →
      nodeOK (fun k => if k = 0 then g (n - 1) else g k) (n - 1) j := by
  intro j hj
  have hjne : j ≠ 0 := by omega
  constructor
  · intro hl
    have hl0 : (2 * j + 1 : ℕ) ≠ 0 := by omega
    simp only [if_neg hl0, if_neg hjne]
    exact (hh j).1 (by omega)
  · intro hr
    have hr0 : (2 * j + 2 : ℕ) ≠ 0 := by omega
    simp only [if_neg hr0, if_neg hjne]
    exact (hh j).2 (by omega)

lemma heapToList_snoc (g : ℕ → α) (n : ℕ) (v : α) :
    heapToList (fun k => if k = n then v else g k) (n + 1) =
      heapToList g n ++ [v] := by
  rw [heapToList, heapToList, List.range_succ, List.map_append]
  congr 1
  · apply List.map_congr_left
    intro k hk
    rw [List.mem_range] at hk
    simp [Nat.ne_of_lt hk]
  · simp

lemma heapToList_shrink (g : ℕ → α) (n : ℕ) (hn : 0 < n) :
    List.Perm (heapToList g n)
      (g 0 ::
        heapToList (fun k => if k = 0 then g (n - 1) else g k) (n - 1)) := by
  rcases n with _ | m
  · omega
  rcases m with _ | k
  · rw [heapToList, heapToList]
    simp [List.range_succ]
  · simp only [Nat.add_sub_cancel]
    have h1 : List.range (k + 1 + 1) = 0 :: List.range' 1 (k + 1) := by
      rw [List.range_eq_range', List.range'_succ]
    have h2 : List.range (k + 1) = 0 :: List.range' 1 k := by
      rw [List.range_eq_range', List.range'_succ]
    have h3 : List.range' 1 (k + 1) = List.range' 1 k ++ [1 + k] :=
      List.range'_1_concat 1 k
    have hmap : List.map (fun j => if j = 0 then g (k + 1) else g j)
        (List.range' 1 k) = List.map g (List.range' 1 k) := by
      apply List.map_congr_left
      intro a ha
      rw [List.mem_range'_1] at ha
      have ha0 : a ≠ 0 := by omega
      simp [ha0]
    rw [heapToList, heapToList, h1, h2, h3]
    simp only [List.map_cons, List.map_append, List.map_nil, hmap,
      if_pos, reduceIte]
    have hadd : (1 + k) = (k + 1) := Nat.add_comm 1 k
    rw [hadd]
    exact List.Perm.cons _ (List.perm_append_singleton _ _)

lemma MinHeap.insert_spec (h : MinHeap α) (v : α) (hh : h.inv) :
    (h.insert v).inv ∧ (h.insert v).size = h.size + 1 ∧
      List.Perm (h.insert v).toListH (v :: h.toListH) := by
  refine ⟨?_, rfl, ?_⟩
  · simp only [MinHeap.inv, MinHeap.insert]
    exact siftUp_restores h.size (by omega) (update_precond v hh)
  · have hperm1 : List.Perm
        (heapToList
          (siftUp (fun k => if k = h.size then v else h.arr k) h.size)
          (h.size + 1))
        (heapToList (fun k => if k = h.size then v else h.arr k)
          (h.size + 1)) :=
      siftUp_perm _ h.size (by omega)
    refine hperm1.trans ?_
    rw [heapToList_snoc]
    exact List.perm_append_singleton _ _

lemma MinHeap.extract_spec (h : MinHeap α) (hh : h.inv)
    (hs : h.size ≠ 0) :
    (h.extract_min).1 = some (h.arr 0) ∧
      (h.extract_min).2.inv ∧
      (h.extract_min).2.size = h.size - 1 ∧
      List.Perm h.toListH (h.arr 0 :: (h.extract_min).2.toListH) ∧
      (∀ x ∈ h.toListH, h.arr 0 ≤ x) := by
  have hmin : ∀ x ∈ h.toListH, h.arr 0 ≤ x := by
    intro x hx
    rw [MinHeap.toListH, heapToList] at hx
    obtain ⟨j, hj, rfl⟩ := List.mem_map.1 hx
    rw [List.mem_range] at hj
    exact isMinHeapOn_root_le hh j hj
  refine ⟨by simp [MinHeap.extract_min, hs], ?_, ?_, ?_, hmin⟩
  · simp only [MinHeap.extract_min, if_neg hs, MinHeap.inv]
    intro j
    exact siftDown_restores 0 (shrink_precond hh) j (Nat.zero_le j)
  · simp [MinHeap.extract_min, hs]
  · simp only [MinHeap.extract_min, if_neg hs, MinHeap.toListH]
    refine (heapToList_shrink h.arr h.size (by omega)).trans ?_
    exact List.Perm.cons _ (siftDown_perm _ _ _).symm

lemma MinHeap.emptyHeap_inv [Inhabited α] :
    (MinHeap.emptyHeap : MinHeap α).inv := by
  intro j
  constructor <;> intro hlt <;> simp [MinHeap.emptyHeap] at hlt

lemma MinHeap.insertAll_spec [Inhabited α] (l : List α) :
    (MinHeap.insertAll l).inv ∧
      List.Perm (MinHeap.insertAll l).toListH l := by
  suffices hgen : ∀ h : MinHeap α, h.inv →
      (l.foldl MinHeap.insert h).inv ∧
      List.Perm (l.foldl MinHeap.insert h).toListH (l ++ h.toListH) by
    have h0 := hgen MinHeap.emptyHeap MinHeap.emptyHeap_inv
    refine ⟨h0.1, h0.2.trans ?_⟩
    simp [MinHeap.toListH, MinHeap.emptyHeap, heapToList]
  induction l with
  | nil => intro h hh; exact ⟨hh, by simp⟩
  | cons a rest ih =>
    intro h hh
    obtain ⟨hinv', _, hperm'⟩ := MinHeap.insert_spec h a hh
    obtain ⟨hinv2, hperm2⟩ := ih (h.insert a) hinv'
    refine ⟨hinv2, ?_⟩
    rw [List.foldl_cons]
    refine hperm2.trans ?_
    refine (List.Perm.append_left rest hperm').trans ?_
    rw [List.cons_append]
    exact List.perm_middle

lemma MinHeap.drainAux_spec :
    ∀ (fuel : ℕ) (h : MinHeap α), h.size = fuel → h.inv →
      (MinHeap.drainAux fuel h).Sorted (· ≤ ·) ∧
      List.Perm (MinHeap.drainAux fuel h) h.toListH := by
  intro fuel
  induction fuel with
  | zero =>
    intro h hs _
    constructor
    · simp [MinHeap.drainAux]
    · simp [MinHeap.drainAux, MinHeap.toListH, heapToList, hs]
  | succ fuel ih =>
    intro h hs hinv
    have hs0 : h.size ≠ 0 := by omega
    obtain ⟨he1, hinv', hsize', hperm, hmin⟩ :=
      MinHeap.extract_spec h hinv hs0
    have hpair : h.extract_min = (some (h.arr 0), (h.extract_min).2) := by
      rw [← he1]
    have hstep : MinHeap.drainAux (fuel + 1) h =
        h.arr 0 :: MinHeap.drainAux fuel (h.extract_min).2 := by
      rw [MinHeap.drainAux, hpair]
    have ih2 := ih (h.extract_min).2 (by omega) hinv'
    constructor
    · rw [hstep]
      refine List.sorted_cons.2 ⟨?_, ih2.1⟩
      intro b hb
      have hb2 : b ∈ (h.extract_min).2.toListH := ih2.2.mem_iff.1 hb
      exact hmin b (hperm.mem_iff.2 (List.mem_cons.2 (Or.inr hb2)))
    · rw [hstep]
      exact (ih2.2.cons _).trans hperm.symm

/-- Claim C2: for every insertion sequence into the initially empty
min-heap, repeatedly extracting the minimum until the size is zero
yields the ascending sort of all inserted values, and on every heap
state peek returns exactly the value the next extract_min call
returns. -/
theorem MinHeap.drain_insertAll_sorted [Inhabited α] (l : List α) :
    MinHeap.drain (MinHeap.insertAll l) = l.insertionSort (· ≤ ·) ∧
      ∀ h : MinHeap α, h.peek = (h.extract_min).1 := by
  constructor
  · obtain ⟨hinv, hperm⟩ := MinHeap.insertAll_spec l
    obtain ⟨hsort, hperm2⟩ :=
      MinHeap.drainAux_spec (MinHeap.insertAll l).size
        (MinHeap.insertAll l) rfl hinv
    refine List.eq_of_perm_of_sorted ?_ hsort
      (List.sorted_insertionSort _ _)
    exact (hperm2.trans hperm).trans (List.perm_insertionSort _ _).symm
  · intro h
    by_cases hs : h.size = 0
    · simp [MinHeap.peek, MinHeap.extract_min, hs]
    · simp [MinHeap.peek, MinHeap.extract_min, hs]

/-- Claim C7: on the empty structures the empty-container queries
return the null sentinel or the empty sequence: the empty tree gives
none for find_min and find_max and an empty inorder traversal, and the
empty heap gives none for peek and extract_min and size zero. -/
theorem empty_structure_queries [LinearOrder α] [Inhabited α] :
    (BSTree.leaf : BSTree α).find_min = none ∧
    (BSTree.leaf : BSTree α).find_max = none ∧
    (BSTree.leaf : BSTree α).inorder_traversal = [] ∧
    (MinHeap.emptyHeap : MinHeap α).peek = none ∧
    ((MinHeap.emptyHeap : MinHeap α).extract_min).1 = none ∧
    (MinHeap.emptyHeap : MinHeap α).size = 0 := by
  refine ⟨rfl, rfl, rfl, ?_, ?_, rfl⟩
  · simp [MinHeap.peek, MinHeap.emptyHeap]
  · simp [MinHeap.extract_min, MinHeap.emptyHeap]

end MinHeapProofs

/- ====================================================================
   heap_sort, embedded from src/algorithms/algorithms.py
==================================================================== -/

/-- Embedded from src/algorithms/algorithms.py, _heapify (lines 133 to
147), first comparison: the larger of the node and its left child
within the bound. -/
def heapifyCand (f : ℕ → ℤ) (n i : ℕ) : ℕ :=
  if 2 * i + 1 < n ∧ f i < f (2 * i + 1) then 2 * i + 1 else i

/-- Embedded from src/algorithms/algorithms.py, _heapify (lines 133 to
147), second comparison: the largest of the node and both children
within the bound. -/
def heapifyLargest (f : ℕ → ℤ) (n i : ℕ) : ℕ :=
  if 2 * i + 2 < n ∧ f (heapifyCand f n i) < f (2 * i + 2) then 2 * i + 2
  else heapifyCand f n i

lemma heapifyLargest_gt (f : ℕ → ℤ) (n i : ℕ)
    (hne : heapifyLargest f n i ≠ i) :
    i < heapifyLargest f n i ∧ heapifyLargest f n i < n := by
  unfold heapifyLargest at hne ⊢
  by_cases hr : 2 * i + 2 < n ∧ f (heapifyCand f n i) < f (2 * i + 2)
  · rw [if_pos hr] at hne ⊢
    exact ⟨by omega, hr.1⟩
  · rw [if_neg hr] at hne ⊢
    unfold heapifyCand at hne ⊢
    by_cases hl : 2 * i + 1 < n ∧ f i < f (2 * i + 1)
    · rw [if_pos hl] at hne ⊢
      exact ⟨by omega, hl.1⟩
    · rw [if_neg hl] at hne
      exact absurd rfl hne

/-- Embedded from src/algorithms/algorithms.py, _heapify (lines 133 to
147): when the largest of the node and its children is not the node,
swap them and continue at the child position. -/
def heapify (f : ℕ → ℤ) (n i : ℕ) : ℕ → ℤ :=
  if h : heapifyLargest f n i ≠ i then
    heapify (swapAt f i (heapifyLargest f n i)) n (heapifyLargest f n i)
  else f
termination_by n - i
decreasing_by
  have := heapifyLargest_gt f n i h
  omega

lemma heapifyLargest_eq_dual (f : ℕ → ℤ) (n i : ℕ) :
    heapifyLargest f n i = @smallerChildTarget ℤᵒᵈ _ f n i := rfl

lemma heapify_eq_dual (f : ℕ → ℤ) (n i : ℕ) :
    heapify f n i = @siftDown ℤᵒᵈ _ f n i := by
  by_cases h : heapifyLargest f n i ≠ i
  · rw [heapify, dif_pos h, siftDown, dif_pos (by
      rw [← heapifyLargest_eq_dual]; exact h)]
    rw [← heapifyLargest_eq_dual]
    exact heapify_eq_dual _ n (heapifyLargest f n i)
  · rw [heapify, dif_neg h, siftDown, dif_neg (by
      rw [← heapifyLargest_eq_dual]; exact h)]
termination_by n - i
decreasing_by
  have := heapifyLargest_gt f n i h
  omega

/-- Embedded from src/algorithms/algorithms.py, heap_sort (lines 122 to
123): the loop for i in range(n // 2 - 1, -1, -1), heapifying each
index from i down to 0. -/
def buildFrom (f : ℕ → ℤ) (n : ℕ) : ℕ → (ℕ → ℤ)
  | 0 => heapify f n 0
  | i + 1 => buildFrom (heapify f n (i + 1)) n i

/-- Embedded from src/algorithms/algorithms.py, heap_sort (lines 122 to
123): build the max heap; when n // 2 is zero the range is empty and
the array is untouched. -/
def buildMaxHeap (f : ℕ → ℤ) (n : ℕ) : ℕ → ℤ :=
  if n / 2 = 0 then f else buildFrom f n (n / 2 - 1)

/-- Embedded from src/algorithms/algorithms.py, heap_sort (lines 126 to
128): the loop for i in range(n - 1, 0, -1): swap the root with index
i, then heapify the prefix of length i from the root. -/
def sortLoop (f : ℕ → ℤ) : ℕ → (ℕ → ℤ)
  | 0 => f
  | i + 1 => sortLoop (heapify (swapAt f 0 (i + 1)) (i + 1) 0) i

/-- Embedded from src/algorithms/algorithms.py, heap_sort (lines 105 to
130): the function copies its argument and mutates only the copy, so
the caller array is the unchanged input list; the result is read back
from the worked-on copy. -/
def heap_sort (arr : List ℤ) : List ℤ :=
  heapToList
    (sortLoop (buildMaxHeap (fun k => arr.getD k 0) arr.length)
      (arr.length - 1))
    arr.length

lemma buildFrom_spec (n : ℕ) :
    ∀ (i : ℕ) (f : ℕ → ℤ),
      (∀ j, i < j → @nodeOK ℤᵒᵈ _ f n j) →
      (∀ j, @nodeOK ℤᵒᵈ _ (buildFrom f n i) n j) ∧
      List.Perm (heapToList (buildFrom f n i) n) (heapToList f n) := by
  intro i
  induction i with
  | zero =>
    intro f H
    constructor
    · intro j
      rw [buildFrom, heapify_eq_dual]
      exact siftDown_restores 0 H j (Nat.zero_le j)
    · rw [buildFrom, heapify_eq_dual]
      exact @siftDown_perm ℤᵒᵈ _ f n 0
  | succ i ih =>
    intro f H
    have h1 : ∀ j, i + 1 ≤ j →
        @nodeOK ℤᵒᵈ _ (heapify f n (i + 1)) n j := by
      intro j hj
      rw [heapify_eq_dual]
      exact siftDown_restores (i + 1) H j hj
    have h2 := ih (heapify f n (i + 1)) (fun j hj => h1 j (by omega))
    refine ⟨by rw [buildFrom]; exact h2.1, ?_⟩
    rw [buildFrom]
    refine h2.2.trans ?_
    rw [heapify_eq_dual]
    exact @siftDown_perm ℤᵒᵈ _ f n (i + 1)

lemma buildMaxHeap_spec (f : ℕ → ℤ) (n : ℕ) :
    (∀ j, @nodeOK ℤᵒᵈ _ (buildMaxHeap f n) n j) ∧
    List.Perm (heapToList (buildMaxHeap f n) n) (heapToList f n) := by
  unfold buildMaxHeap
  split_ifs with h
  · constructor
    · intro j
      exact ⟨fun hl => absurd hl (by omega), fun hr => absurd hr (by omega)⟩
    · exact List.Perm.refl _
  · apply buildFrom_spec
    intro j hj
    exact ⟨fun hl => absurd hl (by omega), fun hr => absurd hr (by omega)⟩

lemma range_split (m n : ℕ) (h : m ≤ n) :
    List.range n = List.range m ++ List.range' m (n - m) := by
  have h2 := List.range'_append_1 0 m (n - m)
  rw [Nat.zero_add] at h2
  rw [List.range_eq_range', List.range_eq_range']
  conv_lhs => rw [show n = (n - m) + m from by omega]
  rw [← h2]

lemma heapToList_split (g : ℕ → ℤ) (m n : ℕ) (h : m ≤ n) :
    heapToList g n =
      heapToList g m ++ (List.range' m (n - m)).map g := by
  rw [heapToList, heapToList, range_split m n h, List.map_append]

lemma sortLoop_spec (n : ℕ) :
    ∀ (i : ℕ) (f : ℕ → ℤ), i < n →
      @IsMinHeapOn ℤᵒᵈ _ f (i + 1) →
      (∀ a b, a ≤ i → i < b → b < n → f a ≤ f b) →
      (∀ a b, i < a → a ≤ b → b < n → f a ≤ f b) →
      (∀ a b, a ≤ b → b < n → sortLoop f i a ≤ sortLoop f i b) ∧
      List.Perm (heapToList (sortLoop f i) n) (heapToList f n) := by
  intro i
  induction i with
  | zero =>
    intro f _ _ hpre hsuf
    refine ⟨?_, List.Perm.refl _⟩
    intro a b hab hbn
    rw [sortLoop]
    rcases Nat.eq_zero_or_pos b with rfl | hb
    · have ha0 : a = 0 := by omega
      rw [ha0]
    · rcases Nat.eq_zero_or_pos a with rfl | ha
      · exact hpre 0 b (le_refl 0) hb hbn
      · exact hsuf a b ha hab hbn
  | succ i ih =>
    intro f hn hheap hpre hsuf
    rw [sortLoop]
    set f1 := swapAt f 0 (i + 1) with hf1
    set f2 := heapify f1 (i + 1) 0 with hf2
    have hin : i < n := by omega
    have hf1_0 : f1 0 = f (i + 1) := by rw [hf1]; simp [swapAt]
    have hf1_i1 : f1 (i + 1) = f 0 := by
      have hne : (i + 1 : ℕ) ≠ 0 := by omega
      rw [hf1]; simp [swapAt, hne]
    have hf1_other : ∀ k, k ≠ 0 → k ≠ i + 1 → f1 k = f k := by
      intro k h1 h2; rw [hf1]; simp [swapAt, h1, h2]
    have hroot : ∀ j, j < i + 2 → f j ≤ f 0 := by
      intro j hj
      exact isMinHeapOn_root_le hheap j hj
    have hpre2 : ∀ j, 0 < j → @nodeOK ℤᵒᵈ _ f1 (i + 1) j := by
      intro j hj
      constructor
      · intro hl
        have e1 : f1 j = f j := hf1_other j (by omega) (by omega)
        have e2 : f1 (2 * j + 1) = f (2 * j + 1) :=
          hf1_other _ (by omega) (by omega)
        rw [e1, e2]
        exact (hheap j).1 (by omega)
      · intro hr
        have e1 : f1 j = f j := hf1_other j (by omega) (by omega)
        have e2 : f1 (2 * j + 2) = f (2 * j + 2) :=
          hf1_other _ (by omega) (by omega)
        rw [e1, e2]
        exact (hheap j).2 (by omega)
    have hheap2 : @IsMinHeapOn ℤᵒᵈ _ f2 (i + 1) := by
      intro j
      rw [hf2, heapify_eq_dual]
      exact siftDown_restores 0 hpre2 j (Nat.zero_le j)
    have hf2_ge : ∀ k, i + 1 ≤ k → f2 k = f1 k := by
      intro k hk
      rw [hf2, heapify_eq_dual]
      exact @siftDown_frame_ge ℤᵒᵈ _ f1 (i + 1) 0 k hk
    have hperm2 : List.Perm (heapToList f2 (i + 1))
        (heapToList f1 (i + 1)) := by
      rw [hf2, heapify_eq_dual]
      exact @siftDown_perm ℤᵒᵈ _ f1 (i + 1) 0
    have hmem2 : ∀ a, a < i + 1 → ∃ k, k < i + 1 ∧ f2 a = f1 k := by
      intro a ha
      have hmem : f2 a ∈ heapToList f2 (i + 1) := by
        rw [heapToList]
        exact List.mem_map.2 ⟨a, List.mem_range.2 ha, rfl⟩
      have hmem' := hperm2.mem_iff.1 hmem
      rw [heapToList] at hmem'
      obtain ⟨k, hk, he⟩ := List.mem_map.1 hmem'
      exact ⟨k, List.mem_range.1 hk, he.symm⟩
    have hf1_le : ∀ k, k < i + 1 → f1 k ≤ f 0 := by
      intro k hk
      rcases Nat.eq_zero_or_pos k with rfl | hk0
      · rw [hf1_0]; exact hroot (i + 1) (by omega)
      · rw [hf1_other k (by omega) (by omega)]
        exact hroot k (by omega)
    have hpre' : ∀ a b, a ≤ i → i < b → b < n → f2 a ≤ f2 b := by
      intro a b ha hb hbn
      obtain ⟨k, hk, he⟩ := hmem2 a (by omega)
      rcases eq_or_lt_of_le (Nat.succ_le_of_lt hb) with hbe | hbl
      · rw [← hbe, hf2_ge (i + 1) (le_refl _), hf1_i1, he]
        exact hf1_le k hk
      · rw [hf2_ge b (by omega), hf1_other b (by omega) (by omega), he]
        rcases Nat.eq_zero_or_pos k with rfl | hk0
        · rw [hf1_0]
          exact hpre (i + 1) b (le_refl _) hbl hbn
        · rw [hf1_other k (by omega) (by omega)]
          exact hpre k b (by omega) hbl hbn
    have hsuf' : ∀ a b, i < a → a ≤ b → b < n → f2 a ≤ f2 b := by
      intro a b ha hab hbn
      rcases eq_or_lt_of_le (Nat.succ_le_of_lt ha) with hae | hal
      · rcases eq_or_lt_of_le hab with hbe | hbl
        · rw [← hbe]
        · rw [← hae, hf2_ge (i + 1) (le_refl _), hf1_i1,
            hf2_ge b (by omega), hf1_other b (by omega) (by omega)]
          exact hpre 0 b (by omega) (by omega) hbn
      · rw [hf2_ge a (by omega), hf1_other a (by omega) (by omega),
          hf2_ge b (by omega), hf1_other b (by omega) (by omega)]
        exact hsuf a b hal hab hbn
    have hpermn : List.Perm (heapToList f2 n) (heapToList f n) := by
      have hs2 := heapToList_split f2 (i + 1) n (by omega)
      have hs1 := heapToList_split f1 (i + 1) n (by omega)
      have htail : (List.range' (i + 1) (n - (i + 1))).map f2 =
          (List.range' (i + 1) (n - (i + 1))).map f1 := by
        apply List.map_congr_left
        intro k hk
        rw [List.mem_range'_1] at hk
        exact hf2_ge k (by omega)
      have h12 : List.Perm (heapToList f2 n) (heapToList f1 n) := by
        rw [hs2, hs1, htail]
        exact hperm2.append_right _
      refine h12.trans ?_
      rw [hf1]
      exact heapToList_swapAt_perm f (by omega) (by omega)
    have hres := ih f2 hin hheap2 hpre' hsuf'
    exact ⟨hres.1, hres.2.trans hpermn⟩

lemma heapToList_sorted_of_monotone {g : ℕ → ℤ} {n : ℕ}
    (h : ∀ a b, a ≤ b → b < n → g a ≤ g b) :
    (heapToList g n).Sorted (· ≤ ·) := by
  rw [heapToList, List.Sorted, List.pairwise_map]
  refine (List.pairwise_lt_range n).imp_of_mem ?_
  intro a b _ hb hab
  rw [List.mem_range] at hb
  exact h a b (le_of_lt hab) hb

lemma heapToList_getD (l : List ℤ) :
    heapToList (fun k => l.getD k 0) l.length = l := by
  apply List.ext_getElem
  · simp [heapToList]
  · intro i h1 h2
    simp only [heapToList, List.getElem_map, List.getElem_range]
    exact List.getD_eq_getElem l 0 h2

/-- Claim C9: heap_sort returns an ascending-sorted permutation of its
argument; the source copies the argument on entry and mutates only the
copy, so the caller list is left unchanged (in this pure embedding the
argument list is read but never rebuilt). -/
theorem heap_sort_spec (arr : List ℤ) :
    (heap_sort arr).Sorted (· ≤ ·) ∧ List.Perm (heap_sort arr) arr := by
  rcases Nat.eq_zero_or_pos arr.length with h0 | hpos
  · have he : arr = [] := List.length_eq_zero.1 h0
    subst he
    exact ⟨by simp [heap_sort, heapToList], by simp [heap_sort, heapToList]⟩
  · obtain ⟨hheap, hpermb⟩ :=
      buildMaxHeap_spec (fun k => arr.getD k 0) arr.length
    have hheap' : @IsMinHeapOn ℤᵒᵈ _
        (buildMaxHeap (fun k => arr.getD k 0) arr.length)
        (arr.length - 1 + 1) := by
      rw [show arr.length - 1 + 1 = arr.length from by omega]
      exact hheap
    obtain ⟨hsorted, hperml⟩ := sortLoop_spec arr.length (arr.length - 1)
      (buildMaxHeap (fun k => arr.getD k 0) arr.length) (by omega) hheap'
      (fun a b ha hb hbn => absurd hbn (by omega))
      (fun a b ha hab hbn => absurd hbn (by omega))
    rw [heap_sort]
    constructor
    · exact heapToList_sorted_of_monotone hsorted
    · refine (hperml.trans hpermb).trans ?_
      rw [heapToList_getD]

/- ====================================================================
   Graph (modelled from the spec)
==================================================================== -/

/-- Modelled from the spec: data_structures.py is absent from src.
Section 3 of the spec: a mapping from vertex identifier to an ordered
collection of adjacent identifiers, insertion order preserved, together
with a directed flag fixed at construction.  The mapping is an
association list in insertion order. -/
structure Graph (V : Type) where
  directed : Bool
  adjList : List (V × List V)

variable {V : Type}

/-- Modelled from the spec: every structure is created empty; the
directed flag is fixed at construction (false by default). -/
def Graph.emptyGraph (directed : Bool) : Graph V := ⟨directed, []⟩

/-- First-match association lookup on the adjacency mapping. -/
def lookupAdj [DecidableEq V] : List (V × List V) → V → Option (List V)
  | [], _ => none
  | (k, ns) :: rest, w => if k = w then some ns else lookupAdj rest w

/-- Modelled from the spec, section 4.4: ensure the vertex exists with
an empty neighbor collection; idempotent. -/
def Graph.add_vertex [DecidableEq V] (g : Graph V) (u : V) : Graph V :=
  if (lookupAdj g.adjList u).isSome then g
  else ⟨g.directed, g.adjList ++ [(u, [])]⟩

/-- Append a value to the neighbor collection of the given key. -/
def appendNeighbor [DecidableEq V] (al : List (V × List V)) (u v : V) :
    List (V × List V) :=
  al.map (fun p => if p.1 = u then (p.1, p.2 ++ [v]) else p)

/-- Modelled from the spec, section 4.4: ensure both endpoints exist,
append v to the collection of u, and if the graph is undirected also
append u to the collection of v. -/
def Graph.add_edge [DecidableEq V] (g : Graph V) (u v : V) : Graph V :=
  if g.directed then
    ⟨g.directed,
      appendNeighbor ((g.add_vertex u).add_vertex v).adjList u v⟩
  else
    ⟨g.directed,
      appendNeighbor
        (appendNeighbor ((g.add_vertex u).add_vertex v).adjList u v) v u⟩

/-- The neighbor collection of a vertex, empty when absent. -/
def Graph.neighbors [DecidableEq V] (g : Graph V) (u : V) : List V :=
  (lookupAdj g.adjList u).getD []

/-- Whether a vertex is present in the adjacency mapping. -/
def Graph.hasVertex [DecidableEq V] (g : Graph V) (u : V) : Bool :=
  (lookupAdj g.adjList u).isSome

section GraphBasic

variable [DecidableEq V]

lemma lookupAdj_append (al bl : List (V × List V)) (w : V) :
    lookupAdj (al ++ bl) w =
      match lookupAdj al w with
      | some x => some x
      | none => lookupAdj bl w := by
  induction al with
  | nil => simp [lookupAdj]
  | cons p rest ih =>
    obtain ⟨k, ns⟩ := p
    by_cases hk : k = w
    · simp [lookupAdj, hk]
    · simp [lookupAdj, hk, ih]

lemma lookupAdj_appendNeighbor (al : List (V × List V)) (u v w : V) :
    lookupAdj (appendNeighbor al u v) w =
      if w = u then (lookupAdj al w).map (fun ns => ns ++ [v])
      else lookupAdj al w := by
  induction al with
  | nil => by_cases hwu : w = u <;> simp [lookupAdj, appendNeighbor, hwu]
  | cons p rest ih =>
    obtain ⟨k, ns⟩ := p
    by_cases hku : k = u
    · have hstep : appendNeighbor ((k, ns) :: rest) u v =
          (k, ns ++ [v]) :: appendNeighbor rest u v := by
        simp [appendNeighbor, hku]
      rw [hstep]
      by_cases hkw : k = w
      · subst hkw
        subst hku
        simp [lookupAdj]
      · subst hku
        have hwk : w ≠ k := fun he => hkw he.symm
        simp [lookupAdj, hkw, hwk, ih]
    · have hstep : appendNeighbor ((k, ns) :: rest) u v =
          (k, ns) :: appendNeighbor rest u v := by
        simp [appendNeighbor, hku]
      rw [hstep]
      by_cases hkw : k = w
      · subst hkw
        simp [lookupAdj, hku, ih]
      · simp [lookupAdj, hku, hkw, ih]

lemma lookupAdj_add_vertex (g : Graph V) (x w : V) :
    lookupAdj (g.add_vertex x).adjList w =
      match lookupAdj g.adjList w with
      | some ns => some ns
      | none => if x = w then some [] else none := by
  rw [Graph.add_vertex]
  by_cases hx : (lookupAdj g.adjList x).isSome
  · rw [if_pos hx]
    rcases hw : lookupAdj g.adjList w with _ | ns
    · simp only []
      by_cases hxw : x = w
      · subst hxw
        rw [hw] at hx
        simp at hx
      · simp [hxw, hw]
    · simp [hw]
  · rw [if_neg hx]
    simp only [lookupAdj_append]
    rcases hw : lookupAdj g.adjList w with _ | ns
    · simp [lookupAdj]
    · simp

lemma Graph.add_vertex_directed (g : Graph V) (x : V) :
    (g.add_vertex x).directed = g.directed := by
  rw [Graph.add_vertex]
  split_ifs <;> rfl

/-- Claim C6: after add_edge the two endpoints are vertices of the
graph and v is in the neighbor collection of u; in the undirected
default u is also in the collection of v, while in a directed graph the
call does not add u to the collection of v (stated for distinct
endpoints, since for a self-loop the forward append and the reverse
append coincide). -/
theorem Graph.add_edge_spec (g : Graph V) (u v : V) :
    ((g.add_edge u v).hasVertex u = true) ∧
    ((g.add_edge u v).hasVertex v = true) ∧
    (v ∈ (g.add_edge u v).neighbors u) ∧
    (g.directed = false → u ∈ (g.add_edge u v).neighbors v) ∧
    (g.directed = true → u ≠ v →
      (g.add_edge u v).neighbors v = g.neighbors v) := by
  obtain ⟨nsu, hnsu⟩ : ∃ ns,
      lookupAdj ((g.add_vertex u).add_vertex v).adjList u = some ns := by
    rw [lookupAdj_add_vertex, lookupAdj_add_vertex]
    rcases h1 : lookupAdj g.adjList u with _ | ns
    · by_cases huv : u = v <;> simp [huv]
    · simp
  obtain ⟨nsv, hnsv⟩ : ∃ ns,
      lookupAdj ((g.add_vertex u).add_vertex v).adjList v = some ns := by
    rw [lookupAdj_add_vertex, lookupAdj_add_vertex]
    rcases h1 : lookupAdj g.adjList v with _ | ns
    · by_cases huv : u = v <;> simp [huv]
    · simp
  by_cases hd : g.directed = true
  · have hadj : (g.add_edge u v).adjList =
        appendNeighbor ((g.add_vertex u).add_vertex v).adjList u v := by
      rw [Graph.add_edge, if_pos hd]
    refine ⟨?_, ?_, ?_, ?_, ?_⟩
    · simp [Graph.hasVertex, hadj, lookupAdj_appendNeighbor, hnsu]
    · by_cases hvu : v = u
      · subst hvu
        simp [Graph.hasVertex, hadj, lookupAdj_appendNeighbor, hnsu]
      · simp [Graph.hasVertex, hadj, lookupAdj_appendNeighbor, hvu, hnsv]
    · simp [Graph.neighbors, hadj, lookupAdj_appendNeighbor, hnsu]
    · intro hfalse
      rw [hfalse] at hd
      simp at hd
    · intro _ huv
      have hvu : v ≠ u := fun he => huv he.symm
      simp only [Graph.neighbors, hadj, lookupAdj_appendNeighbor,
        if_neg hvu]
      rw [hnsv]
      rw [lookupAdj_add_vertex, lookupAdj_add_vertex] at hnsv
      rcases h1 : lookupAdj g.adjList v with _ | ns
      · rw [h1] at hnsv
        simp [huv] at hnsv
        simp [h1, ← hnsv]
      · rw [h1] at hnsv
        simp at hnsv
        simp [h1, ← hnsv]
  · have hd' : g.directed = false := by simpa using hd
    have hadj : (g.add_edge u v).adjList =
        appendNeighbor
          (appendNeighbor ((g.add_vertex u).add_vertex v).adjList u v)
          v u := by
      rw [Graph.add_edge, if_neg hd]
    refine ⟨?_, ?_, ?_, ?_, ?_⟩
    · by_cases huv : u = v
      · subst huv
        simp [Graph.hasVertex, hadj, lookupAdj_appendNeighbor, hnsu]
      · simp [Graph.hasVertex, hadj, lookupAdj_appendNeighbor, huv, hnsu]
    · by_cases hvu : v = u
      · subst hvu
        simp [Graph.hasVertex, hadj, lookupAdj_appendNeighbor, hnsu]
      · simp [Graph.hasVertex, hadj, lookupAdj_appendNeighbor, hvu, hnsv]
    · by_cases huv : u = v
      · subst huv
        simp [Graph.neighbors, hadj, lookupAdj_appendNeighbor, hnsu]
      · simp [Graph.neighbors, hadj, lookupAdj_appendNeighbor, huv, hnsu]
    · intro _
      by_cases hvu : v = u
      · subst hvu
        simp [Graph.neighbors, hadj, lookupAdj_appendNeighbor, hnsu]
      · simp [Graph.neighbors, hadj, lookupAdj_appendNeighbor, hvu, hnsv]
    · intro htrue _
      exact absurd htrue hd

/-- Closed witness for the C6 theorem, at a directed graph with the
edge A to B of the test suite (vertices encoded as numbers) and at the
default undirected graph. -/
theorem Graph.add_edge_spec_witness :
    (((Graph.emptyGraph true : Graph ℕ).add_edge 0 1).neighbors 1 =
        (Graph.emptyGraph true : Graph ℕ).neighbors 1 ∧
      ((Graph.emptyGraph true : Graph ℕ).add_edge 0 1).neighbors 1 = []) ∧
    ((0 : ℕ) ∈ ((Graph.emptyGraph false : Graph ℕ).add_edge 0 1).neighbors 1) := by
  refine ⟨⟨?_, by decide⟩, ?_⟩
  · exact (Graph.add_edge_spec (Graph.emptyGraph true) 0 1).2.2.2.2
      (by decide) (by decide)
  · exact (Graph.add_edge_spec (Graph.emptyGraph false) 0 1).2.2.2.1
      (by decide)

end GraphBasic

section GraphTraversal

variable [DecidableEq V]

/-- All identifiers occurring in the adjacency mapping: the keys and
the members of every neighbor collection. -/
def idsOf : List (V × List V) → Finset V
  | [] => ∅
  | (k, ns) :: rest => insert k (ns.toFinset ∪ idsOf rest)

lemma lookupAdj_mem {al : List (V × List V)} {u : V} {ns : List V}
    (h : lookupAdj al u = some ns) : (u, ns) ∈ al := by
  induction al with
  | nil => simp [lookupAdj] at h
  | cons p rest ih =>
    obtain ⟨k, ms⟩ := p
    by_cases hk : k = u
    · subst hk
      simp [lookupAdj] at h
      simp [h]
    · simp [lookupAdj, hk] at h
      exact List.mem_cons.2 (Or.inr (ih h))

lemma mem_idsOf_key {al : List (V × List V)} {k : V} {ns : List V}
    (h : (k, ns) ∈ al) : k ∈ idsOf al := by
  induction al with
  | nil => cases h
  | cons p rest ih =>
    obtain ⟨k2, ns2⟩ := p
    rcases List.mem_cons.1 h with he | hm
    · rw [idsOf]
      have : k = k2 := congrArg Prod.fst he
      simp [this]
    · rw [idsOf]
      simp [ih hm]

lemma mem_idsOf_neighbor {al : List (V × List V)} {k x : V}
    {ns : List V} (h : (k, ns) ∈ al) (hx : x ∈ ns) : x ∈ idsOf al := by
  induction al with
  | nil => cases h
  | cons p rest ih =>
    obtain ⟨k2, ns2⟩ := p
    rcases List.mem_cons.1 h with he | hm
    · rw [idsOf]
      have h2 : ns = ns2 := congrArg Prod.snd he
      subst h2
      simp [hx]
    · rw [idsOf]
      simp [ih hm]

lemma neighbors_subset_ids (g : Graph V) (u : V) :
    ∀ x ∈ g.neighbors u, x ∈ idsOf g.adjList := by
  intro x hx
  rw [Graph.neighbors] at hx
  rcases hl : lookupAdj g.adjList u with _ | ns
  · rw [hl] at hx; simp at hx
  · rw [hl] at hx
    simp at hx
    exact mem_idsOf_neighbor (lookupAdj_mem hl) hx

lemma neighbors_eq_nil_of_not_mem_ids (g : Graph V) (u : V)
    (hu : u ∉ idsOf g.adjList) : g.neighbors u = [] := by
  rcases hl : lookupAdj g.adjList u with _ | ns
  · simp [Graph.neighbors, hl]
  · exact absurd (mem_idsOf_key (lookupAdj_mem hl)) hu

/-- Modelled from the spec, section 4.4: process the neighbor
collection of a dequeued vertex, enqueueing each neighbor not yet
visited and marking it visited at enqueue time. -/
def bfsStep (st : Finset V × List V) (ns : List V) : Finset V × List V :=
  ns.foldl
    (fun st w => if w ∈ st.1 then st else (insert w st.1, st.2 ++ [w]))
    st

lemma bfsStep_spec (ns : List V) :
    ∀ st : Finset V × List V, ∃ new : List V,
      (bfsStep st ns).2 = st.2 ++ new ∧
      (bfsStep st ns).1 = st.1 ∪ new.toFinset ∧
      new.Nodup ∧
      (∀ x ∈ new, x ∈ ns ∧ x ∉ st.1) ∧
      (∀ x ∈ ns, x ∈ (bfsStep st ns).1) := by
  induction ns with
  | nil =>
    intro st
    exact ⟨[], by simp [bfsStep], by simp [bfsStep], by simp, by simp,
      by simp⟩
  | cons w ns ih =>
    intro st
    by_cases hw : w ∈ st.1
    · have hstep : bfsStep st (w :: ns) = bfsStep st ns := by
        simp [bfsStep, hw]
      obtain ⟨new, h1, h2, h3, h4, h5⟩ := ih st
      refine ⟨new, by rw [hstep]; exact h1, by rw [hstep]; exact h2, h3,
        ?_, ?_⟩
      · exact fun x hx => ⟨List.mem_cons.2 (Or.inr (h4 x hx).1),
          (h4 x hx).2⟩
      · intro x hx
        rw [hstep]
        rcases List.mem_cons.1 hx with rfl | hx'
        · rw [h2]; exact Finset.mem_union.2 (Or.inl hw)
        · exact h5 x hx'
    · have hstep : bfsStep st (w :: ns) =
          bfsStep (insert w st.1, st.2 ++ [w]) ns := by
        simp [bfsStep, hw]
      obtain ⟨new, h1, h2, h3, h4, h5⟩ := ih (insert w st.1, st.2 ++ [w])
      refine ⟨w :: new, ?_, ?_, ?_, ?_, ?_⟩
      · rw [hstep, h1]; simp
      · rw [hstep, h2]
        ext x
        simp only [Finset.mem_union, Finset.mem_insert, List.mem_toFinset,
          List.mem_cons]
        tauto
      · rw [List.nodup_cons]
        exact ⟨fun hwnew => (h4 w hwnew).2 (Finset.mem_insert_self w st.1),
          h3⟩
      · intro x hx
        rcases List.mem_cons.1 hx with rfl | hx'
        · exact ⟨List.mem_cons_self _ _, hw⟩
        · obtain ⟨hxn, hxs⟩ := h4 x hx'
          exact ⟨List.mem_cons.2 (Or.inr hxn),
            fun hmem => hxs (Finset.mem_insert.2 (Or.inr hmem))⟩
      · intro x hx
        rw [hstep]
        rcases List.mem_cons.1 hx with rfl | hx'
        · rw [h2]
          exact Finset.mem_union.2 (Or.inl (Finset.mem_insert_self _ _))
        · exact h5 x hx'

lemma bfs_measure_lt (g : Graph V) (visited : Finset V) (u : V)
    (rest : List V) :
    (idsOf g.adjList \ (bfsStep (visited, rest) (g.neighbors u)).1).card +
        (bfsStep (visited, rest) (g.neighbors u)).2.length <
      (idsOf g.adjList \ visited).card + (u :: rest).length := by
  obtain ⟨new, h1, h2, h3, h4, _⟩ :=
    bfsStep_spec (g.neighbors u) (visited, rest)
  have hsub : new.toFinset ⊆ idsOf g.adjList \ visited := by
    intro x hx
    rw [List.mem_toFinset] at hx
    obtain ⟨hxn, hxv⟩ := h4 x hx
    exact Finset.mem_sdiff.2 ⟨neighbors_subset_ids g u x hxn, hxv⟩
  have hcard : (idsOf g.adjList \ (visited ∪ new.toFinset)).card =
      (idsOf g.adjList \ visited).card - new.toFinset.card := by
    rw [← Finset.sup_eq_union, ← sdiff_sdiff_left,
      Finset.card_sdiff hsub]
  have hlen : new.toFinset.card = new.length :=
    List.toFinset_card_of_nodup h3
  have hle : new.toFinset.card ≤ (idsOf g.adjList \ visited).card :=
    Finset.card_le_card hsub
  have h1' : (bfsStep (visited, rest) (g.neighbors u)).2 =
      rest ++ new := h1
  rw [hlen] at hcard hle
  rw [h1', h2, hcard, List.length_append, List.length_cons]
  omega

/-- Modelled from the spec, section 4.4: breadth-first traversal with a
first-in-first-out queue and a visited set, marking neighbors visited
at enqueue time; returns the visitation order and the final visited
set. -/
def bfsAux (g : Graph V) (visited : Finset V) (queue : List V) :
    List V × Finset V :=
  match queue with
  | [] => ([], visited)
  | u :: rest =>
    (u :: (bfsAux g (bfsStep (visited, rest) (g.neighbors u)).1
        (bfsStep (visited, rest) (g.neighbors u)).2).1,
      (bfsAux g (bfsStep (visited, rest) (g.neighbors u)).1
        (bfsStep (visited, rest) (g.neighbors u)).2).2)
termination_by (idsOf g.adjList \ visited).card + queue.length
decreasing_by
  all_goals exact bfs_measure_lt _ _ _ _

/-- Modelled from the spec, section 4.4: breadth-first search with the
visited set and queue initialized to the start vertex. -/
def Graph.bfs (g : Graph V) (s : V) : List V := (bfsAux g {s} [s]).1

/-- One vertex is reachable from another along directed neighbor
steps. -/
def Graph.Reach (g : Graph V) (a b : V) : Prop :=
  Relation.ReflTransGen (fun x y => y ∈ g.neighbors x) a b

lemma bfsAux_spec (g : Graph V) (visited : Finset V) (queue : List V) :
    (∀ x ∈ queue, x ∈ (bfsAux g visited queue).1) ∧
    (∀ x ∈ (bfsAux g visited queue).1, ∃ u ∈ queue, g.Reach u x) ∧
    visited ⊆ (bfsAux g visited queue).2 ∧
    ((∀ x ∈ visited, x ∈ queue ∨ ∀ w ∈ g.neighbors x, w ∈ visited) →
      ∀ x ∈ (bfsAux g visited queue).2, ∀ w ∈ g.neighbors x,
        w ∈ (bfsAux g visited queue).2) ∧
    (∀ x ∈ (bfsAux g visited queue).2,
      x ∈ visited ∨ x ∈ (bfsAux g visited queue).1) ∧
    ((∀ x ∈ queue, x ∈ visited) →
      (∀ x ∈ (bfsAux g visited queue).1, x ∈ queue ∨ x ∉ visited) ∧
      (queue.Nodup → (bfsAux g visited queue).1.Nodup)) := by
  rcases queue with _ | ⟨u, rest⟩
  · refine ⟨by simp [bfsAux], by simp [bfsAux], by simp [bfsAux], ?_,
      by simp [bfsAux], by simp [bfsAux]⟩
    intro hinv x hx w hw
    simp only [bfsAux] at hx ⊢
    rcases hinv x hx with h | h
    · simp at h
    · exact h w hw
  · obtain ⟨new, h1, h2, h3, h4, h5⟩ :=
      bfsStep_spec (g.neighbors u) (visited, rest)
    have h1' : (bfsStep (visited, rest) (g.neighbors u)).2 =
        rest ++ new := h1
    have h2' : (bfsStep (visited, rest) (g.neighbors u)).1 =
        visited ∪ new.toFinset := h2
    have h4' : ∀ x ∈ new, x ∈ g.neighbors u ∧ x ∉ visited := h4
    obtain ⟨A, B, C1, C, D2, E⟩ := bfsAux_spec g
      (bfsStep (visited, rest) (g.neighbors u)).1
      (bfsStep (visited, rest) (g.neighbors u)).2
    have hu1 : (bfsAux g visited (u :: rest)).1 =
        u :: (bfsAux g (bfsStep (visited, rest) (g.neighbors u)).1
          (bfsStep (visited, rest) (g.neighbors u)).2).1 := by
      rw [bfsAux]
    have hu2 : (bfsAux g visited (u :: rest)).2 =
        (bfsAux g (bfsStep (visited, rest) (g.neighbors u)).1
          (bfsStep (visited, rest) (g.neighbors u)).2).2 := by
      rw [bfsAux]
    refine ⟨?_, ?_, ?_, ?_, ?_, ?_⟩
    · intro x hx
      rw [hu1]
      rcases List.mem_cons.1 hx with rfl | hx'
      · exact List.mem_cons_self _ _
      · refine List.mem_cons.2 (Or.inr (A x ?_))
        rw [h1']
        exact List.mem_append.2 (Or.inl hx')
    · intro x hx
      rw [hu1] at hx
      rcases List.mem_cons.1 hx with rfl | hx'
      · exact ⟨x, List.mem_cons_self _ _, Relation.ReflTransGen.refl⟩
      · obtain ⟨z, hz, hreach⟩ := B x hx'
        rw [h1'] at hz
        rcases List.mem_append.1 hz with hz1 | hz2
        · exact ⟨z, List.mem_cons.2 (Or.inr hz1), hreach⟩
        · exact ⟨u, List.mem_cons_self _ _,
            Relation.ReflTransGen.head ((h4' z hz2).1) hreach⟩
    · rw [hu2]
      intro x hx
      apply C1
      rw [h2']
      exact Finset.mem_union.2 (Or.inl hx)
    · intro hinv
      have hyp2 : ∀ x ∈ (bfsStep (visited, rest) (g.neighbors u)).1,
          x ∈ (bfsStep (visited, rest) (g.neighbors u)).2 ∨
          ∀ w ∈ g.neighbors x,
            w ∈ (bfsStep (visited, rest) (g.neighbors u)).1 := by
        intro x hx
        rw [h2'] at hx
        rcases Finset.mem_union.1 hx with hxv | hxn
        · rcases hinv x hxv with hxq | hn
          · rcases List.mem_cons.1 hxq with rfl | hq'
            · right
              intro w hw
              exact h5 w hw
            · left
              rw [h1']
              exact List.mem_append.2 (Or.inl hq')
          · right
            intro w hw
            rw [h2']
            exact Finset.mem_union.2 (Or.inl (hn w hw))
        · left
          rw [h1']
          rw [List.mem_toFinset] at hxn
          exact List.mem_append.2 (Or.inr hxn)
      rw [hu2]
      exact C hyp2
    · intro x hx
      rw [hu2] at hx
      rw [hu1]
      rcases D2 x hx with hx1 | hx2
      · rw [h2'] at hx1
        rcases Finset.mem_union.1 hx1 with hv | hn
        · exact Or.inl hv
        · right
          rw [List.mem_toFinset] at hn
          refine List.mem_cons.2 (Or.inr (A x ?_))
          rw [h1']
          exact List.mem_append.2 (Or.inr hn)
      · exact Or.inr (List.mem_cons.2 (Or.inr hx2))
    · intro hq
      have hqv : ∀ x ∈ (bfsStep (visited, rest) (g.neighbors u)).2,
          x ∈ (bfsStep (visited, rest) (g.neighbors u)).1 := by
        intro x hx
        rw [h1'] at hx
        rw [h2']
        rcases List.mem_append.1 hx with hx1 | hx2
        · exact Finset.mem_union.2
            (Or.inl (hq x (List.mem_cons.2 (Or.inr hx1))))
        · exact Finset.mem_union.2 (Or.inr (List.mem_toFinset.2 hx2))
      obtain ⟨E1, E2⟩ := E hqv
      constructor
      · intro x hx
        rw [hu1] at hx
        rcases List.mem_cons.1 hx with rfl | hx'
        · exact Or.inl (List.mem_cons_self _ _)
        · rcases E1 x hx' with hx1 | hx2
          · rw [h1'] at hx1
            rcases List.mem_append.1 hx1 with hm | hm
            · exact Or.inl (List.mem_cons.2 (Or.inr hm))
            · exact Or.inr (h4' x hm).2
          · refine Or.inr (fun hv => hx2 ?_)
            rw [h2']
            exact Finset.mem_union.2 (Or.inl hv)
      · intro hnd
        rw [hu1]
        rw [List.nodup_cons] at hnd ⊢
        obtain ⟨hur, hrnd⟩ := hnd
        have hstnd : (bfsStep (visited, rest) (g.neighbors u)).2.Nodup := by
          rw [h1', List.nodup_append]
          refine ⟨hrnd, h3, ?_⟩
          intro x hx1 hx2
          exact (h4' x hx2).2 (hq x (List.mem_cons.2 (Or.inr hx1)))
        refine ⟨?_, E2 hstnd⟩
        intro hurec
        rcases E1 u hurec with hm | hm
        · rw [h1'] at hm
          rcases List.mem_append.1 hm with hm2 | hm2
          · exact hur hm2
          · exact (h4' u hm2).2 (hq u (List.mem_cons_self _ _))
        · refine hm ?_
          rw [h2']
          exact Finset.mem_union.2 (Or.inl (hq u (List.mem_cons_self _ _)))
termination_by (idsOf g.adjList \ visited).card + queue.length
decreasing_by exact bfs_measure_lt _ _ _ _

lemma dfs_measure_lt (g : Graph V) (visited : Finset V) (u : V)
    (rest : List V) (hu : u ∉ visited) :
    Prod.Lex (· < ·) (· < ·)
      ((idsOf g.adjList \ insert u visited).card,
        (g.neighbors u ++ rest).length)
      ((idsOf g.adjList \ visited).card, (u :: rest).length) := by
  by_cases hid : u ∈ idsOf g.adjList
  · apply Prod.Lex.left
    apply Finset.card_lt_card
    rw [Finset.ssubset_iff_of_subset
      (Finset.sdiff_subset_sdiff (Finset.Subset.refl _)
        (Finset.subset_insert u visited))]
    exact ⟨u, Finset.mem_sdiff.2 ⟨hid, hu⟩, fun hmem =>
      (Finset.mem_sdiff.1 hmem).2 (Finset.mem_insert_self u visited)⟩
  · have hnb : g.neighbors u = [] :=
      neighbors_eq_nil_of_not_mem_ids g u hid
    have hcard : idsOf g.adjList \ insert u visited =
        idsOf g.adjList \ visited := by
      ext x
      simp only [Finset.mem_sdiff, Finset.mem_insert]
      constructor
      · rintro ⟨hx1, hx2⟩
        exact ⟨hx1, fun hx3 => hx2 (Or.inr hx3)⟩
      · rintro ⟨hx1, hx2⟩
        refine ⟨hx1, ?_⟩
        rintro (rfl | hx3)
        · exact hid hx1
        · exact hx2 hx3
    rw [hcard, hnb, List.nil_append]
    exact Prod.Lex.right _ (by simp)

/-- Modelled from the spec, sections 4.4 and 9: depth-first traversal
implemented iteratively with an explicit stack of vertices to visit; a
popped vertex not yet visited is marked, output, and its neighbors are
pushed before the remaining stack. -/
def dfsAux (g : Graph V) (visited : Finset V) (stack : List V) :
    List V × Finset V :=
  match stack with
  | [] => ([], visited)
  | u :: rest =>
    if hu : u ∈ visited then dfsAux g visited rest
    else
      (u :: (dfsAux g (insert u visited) (g.neighbors u ++ rest)).1,
        (dfsAux g (insert u visited) (g.neighbors u ++ rest)).2)
termination_by ((idsOf g.adjList \ visited).card, stack.length)
decreasing_by
  · exact Prod.Lex.right _ (by simp)
  · exact dfs_measure_lt _ _ _ _ hu

/-- Modelled from the spec, section 4.4: depth-first search starting
from an empty visited set and the start vertex on the stack. -/
def Graph.dfs (g : Graph V) (s : V) : List V := (dfsAux g ∅ [s]).1

lemma dfsAux_nil (g : Graph V) (visited : Finset V) :
    dfsAux g visited [] = ([], visited) := by
  rw [dfsAux.eq_def]

lemma dfsAux_cons_mem (g : Graph V) (visited : Finset V) (u : V)
    (rest : List V) (hu : u ∈ visited) :
    dfsAux g visited (u :: rest) = dfsAux g visited rest := by
  rw [dfsAux.eq_def]
  exact dif_pos hu

lemma dfsAux_cons_not_mem (g : Graph V) (visited : Finset V) (u : V)
    (rest : List V) (hu : u ∉ visited) :
    dfsAux g visited (u :: rest) =
      (u :: (dfsAux g (insert u visited) (g.neighbors u ++ rest)).1,
        (dfsAux g (insert u visited) (g.neighbors u ++ rest)).2) := by
  rw [dfsAux.eq_def]
  exact dif_neg hu

lemma dfsAux_spec (g : Graph V) (visited : Finset V) (stack : List V) :
    (∀ x ∈ stack, x ∈ (dfsAux g visited stack).2) ∧
    visited ⊆ (dfsAux g visited stack).2 ∧
    (∀ x ∈ (dfsAux g visited stack).1, ∃ u ∈ stack, g.Reach u x) ∧
    ((∀ x ∈ visited, ∀ w ∈ g.neighbors x, w ∈ visited ∨ w ∈ stack) →
      ∀ x ∈ (dfsAux g visited stack).2, ∀ w ∈ g.neighbors x,
        w ∈ (dfsAux g visited stack).2) ∧
    (∀ x ∈ (dfsAux g visited stack).2,
      x ∈ visited ∨ x ∈ (dfsAux g visited stack).1) ∧
    (∀ x ∈ (dfsAux g visited stack).1, x ∉ visited) ∧
    (dfsAux g visited stack).1.Nodup := by
  rcases stack with _ | ⟨u, rest⟩
  · refine ⟨by simp [dfsAux_nil], by simp [dfsAux_nil],
      by simp [dfsAux_nil], ?_, by simp [dfsAux_nil],
      by simp [dfsAux_nil], by simp [dfsAux_nil]⟩
    intro hinv x hx w hw
    simp only [dfsAux_nil] at hx ⊢
    rcases hinv x hx w hw with h | h
    · exact h
    · simp at h
  · by_cases hu : u ∈ visited
    · have hs1 : (dfsAux g visited (u :: rest)).1 =
          (dfsAux g visited rest).1 := by
        rw [dfsAux_cons_mem g visited u rest hu]
      have hs2 : (dfsAux g visited (u :: rest)).2 =
          (dfsAux g visited rest).2 := by
        rw [dfsAux_cons_mem g visited u rest hu]
      obtain ⟨A, C1, B, C, D2, E1, E2⟩ := dfsAux_spec g visited rest
      refine ⟨?_, ?_, ?_, ?_, ?_, ?_, ?_⟩
      · intro x hx
        rw [hs2]
        rcases List.mem_cons.1 hx with rfl | hx'
        · exact C1 hu
        · exact A x hx'
      · rw [hs2]; exact C1
      · intro x hx
        rw [hs1] at hx
        obtain ⟨z, hz, hr⟩ := B x hx
        exact ⟨z, List.mem_cons.2 (Or.inr hz), hr⟩
      · intro hinv
        rw [hs2]
        apply C
        intro x hx w hw
        rcases hinv x hx w hw with h | h
        · exact Or.inl h
        · rcases List.mem_cons.1 h with rfl | h'
          · exact Or.inl hu
          · exact Or.inr h'
      · intro x hx
        rw [hs2] at hx
        rw [hs1]
        exact D2 x hx
      · intro x hx
        rw [hs1] at hx
        exact E1 x hx
      · rw [hs1]; exact E2
    · have hs1 : (dfsAux g visited (u :: rest)).1 =
          u :: (dfsAux g (insert u visited)
            (g.neighbors u ++ rest)).1 := by
        rw [dfsAux_cons_not_mem g visited u rest hu]
      have hs2 : (dfsAux g visited (u :: rest)).2 =
          (dfsAux g (insert u visited) (g.neighbors u ++ rest)).2 := by
        rw [dfsAux_cons_not_mem g visited u rest hu]
      obtain ⟨A, C1, B, C, D2, E1, E2⟩ :=
        dfsAux_spec g (insert u visited) (g.neighbors u ++ rest)
      refine ⟨?_, ?_, ?_, ?_, ?_, ?_, ?_⟩
      · intro x hx
        rw [hs2]
        rcases List.mem_cons.1 hx with rfl | hx'
        · exact C1 (Finset.mem_insert_self _ _)
        · exact A x (List.mem_append.2 (Or.inr hx'))
      · rw [hs2]
        exact fun x hx => C1 (Finset.mem_insert.2 (Or.inr hx))
      · intro x hx
        rw [hs1] at hx
        rcases List.mem_cons.1 hx with rfl | hx'
        · exact ⟨x, List.mem_cons_self _ _, Relation.ReflTransGen.refl⟩
        · obtain ⟨z, hz, hr⟩ := B x hx'
          rcases List.mem_append.1 hz with hz1 | hz2
          · exact ⟨u, List.mem_cons_self _ _,
              Relation.ReflTransGen.head hz1 hr⟩
          · exact ⟨z, List.mem_cons.2 (Or.inr hz2), hr⟩
      · intro hinv
        rw [hs2]
        apply C
        intro x hx w hw
        rcases Finset.mem_insert.1 hx with rfl | hx'
        · exact Or.inr (List.mem_append.2 (Or.inl hw))
        · rcases hinv x hx' w hw with h | h
          · exact Or.inl (Finset.mem_insert.2 (Or.inr h))
          · rcases List.mem_cons.1 h with rfl | h'
            · exact Or.inl (Finset.mem_insert_self _ _)
            · exact Or.inr (List.mem_append.2 (Or.inr h'))
      · intro x hx
        rw [hs2] at hx
        rw [hs1]
        rcases D2 x hx with hx1 | hx2
        · rcases Finset.mem_insert.1 hx1 with rfl | hx'
          · exact Or.inr (List.mem_cons_self _ _)
          · exact Or.inl hx'
        · exact Or.inr (List.mem_cons.2 (Or.inr hx2))
      · intro x hx
        rw [hs1] at hx
        rcases List.mem_cons.1 hx with rfl | hx'
        · exact hu
        · exact fun hv => E1 x hx' (Finset.mem_insert.2 (Or.inr hv))
      · rw [hs1, List.nodup_cons]
        exact ⟨fun hmem => E1 u hmem (Finset.mem_insert_self _ _), E2⟩
termination_by ((idsOf g.adjList \ visited).card, stack.length)
decreasing_by
  · exact Prod.Lex.right _ (by simp)
  · exact dfs_measure_lt _ _ _ _ hu

/-- Claim C3: for every graph and every start vertex present in the
graph, bfs and dfs both return sequences whose first element is the
start, that contain every vertex reachable from the start exactly once
(the returned order has no duplicates), and that contain no unreachable
vertex. -/
theorem Graph.bfs_dfs_spec (g : Graph V) (s : V)
    (hs : (lookupAdj g.adjList s).isSome = true) :
    (∃ t, g.bfs s = s :: t) ∧ (g.bfs s).Nodup ∧
    (∀ x, x ∈ g.bfs s ↔ g.Reach s x) ∧
    (∃ t, g.dfs s = s :: t) ∧ (g.dfs s).Nodup ∧
    (∀ x, x ∈ g.dfs s ↔ g.Reach s x) := by
  obtain ⟨A, B, C1, C, D2, E⟩ := bfsAux_spec g {s} [s]
  have hq0 : ∀ x ∈ [s], x ∈ ({s} : Finset V) := by simp
  obtain ⟨E1, E2⟩ := E hq0
  have hclosed := C (by
    intro x hx
    left
    simp at hx
    simp [hx])
  have hreach_in : ∀ x, g.Reach s x → x ∈ (bfsAux g {s} [s]).2 := by
    intro x hx
    induction hx with
    | refl => exact C1 (Finset.mem_singleton_self s)
    | tail hab hbc ih => exact hclosed _ ih _ hbc
  have hbfs_head : ∃ t, g.bfs s = s :: t := by
    refine ⟨(bfsAux g (bfsStep ({s}, []) (g.neighbors s)).1
      (bfsStep ({s}, []) (g.neighbors s)).2).1, ?_⟩
    rw [Graph.bfs, bfsAux]
  have hmem_iff : ∀ x, x ∈ g.bfs s ↔ g.Reach s x := by
    intro x
    constructor
    · intro hx
      obtain ⟨z, hz, hr⟩ := B x hx
      simp at hz
      subst hz
      exact hr
    · intro hx
      rcases D2 x (hreach_in x hx) with hx1 | hx2
      · simp at hx1
        subst hx1
        exact A x (by simp)
      · exact hx2
  obtain ⟨A2, C12, B2, C2, D22, E12, E22⟩ := dfsAux_spec g ∅ [s]
  have hclosed2 := C2 (by intro x hx; simp at hx)
  have hreach_in2 : ∀ x, g.Reach s x → x ∈ (dfsAux g ∅ [s]).2 := by
    intro x hx
    induction hx with
    | refl => exact A2 s (by simp)
    | tail hab hbc ih => exact hclosed2 _ ih _ hbc
  have hdfs_head : ∃ t, g.dfs s = s :: t := by
    refine ⟨(dfsAux g (insert s ∅) (g.neighbors s ++ [])).1, ?_⟩
    rw [Graph.dfs,
      dfsAux_cons_not_mem g ∅ s [] (Finset.not_mem_empty s)]
  have hmem_iff2 : ∀ x, x ∈ g.dfs s ↔ g.Reach s x := by
    intro x
    constructor
    · intro hx
      obtain ⟨z, hz, hr⟩ := B2 x hx
      simp at hz
      subst hz
      exact hr
    · intro hx
      rcases D22 x (hreach_in2 x hx) with hx1 | hx2
      · simp at hx1
      · exact hx2
  exact ⟨hbfs_head, E2 (by simp), hmem_iff, hdfs_head, E22, hmem_iff2⟩

/-- The undirected graph of the traversal tests, with the vertex names
A, B, C, D encoded as the numbers 0, 1, 2, 3. -/
def testGraph : Graph ℕ :=
  ((((Graph.emptyGraph false).add_edge 0 1).add_edge 0 2).add_edge
    1 3).add_edge 2 3

/-- Closed witness for the C3 theorem at the test graph: the start
vertex is present in the graph, and both traversals begin with it. -/
theorem Graph.bfs_dfs_spec_witness :
    (lookupAdj testGraph.adjList 0).isSome = true ∧
      (∃ t, testGraph.bfs 0 = 0 :: t) ∧
      (∃ t, testGraph.dfs 0 = 0 :: t) := by
  refine ⟨by decide, ?_, ?_⟩
  · exact (Graph.bfs_dfs_spec testGraph 0 (by decide)).1
  · exact (Graph.bfs_dfs_spec testGraph 0 (by decide)).2.2.2.1

end GraphTraversal

end PyPortfolio
